import Mathlib

/-!
Verification of the history-upload protocol of the chromium-history-extension
repository. All definitions are shallow embeddings of the code in
`src/frontend/extension/background/service_worker.js`:

* `toBackendHistoryEntry` / `prepareHistoryForBackend` — the map/filter that
  converts raw Chrome history items to backend records (lines 973-1015);
* `chunkList` / `prepareBatches` — the batch preparation of `chatWithBackend`
  (lines 1057-1077);
* `mergeStep` / `mergeItems` — the URL-keyed deduplicating merge of
  `fetchHistory` (lines 703-717);
* `bigFetch` / `fetchHistoryModel` — the paginated enumerator `fetchHistory`
  (lines 519-733), parameterised by an oracle listing the successive responses
  of `chrome.history.search`;
* `step` / `runFrom` — the WebSocket session state machine of `chatWithBackend`
  (lines 1043-1280), with the message handlers embedded as pure transition
  functions over an explicit session state.  Asynchronous callbacks
  (the 10ms inter-batch delay, the 100ms send retry) are collapsed into their
  eventual synchronous effect, and the JavaScript Promise's first-settle-wins
  rule is modelled by the `settle` latch.  Sent messages are recorded in a
  ghost log together with the protocol counters at the moment of sending.

JavaScript numbers are modelled as `Int` (timestamps, visit counts) and `Nat`
(sizes, indices); `undefined`/`null`/`NaN` inputs are modelled by `Option`.
-/

namespace ChromiumHistory

/-! ## Raw history items and backend records -/

/-- Raw item as returned by `chrome.history.search`.  `none` models a missing
(`undefined`/`null`, or for numbers also `NaN`/non-finite) field. -/
structure HistoryItem where
  url : Option String
  title : Option String
  visitCount : Option Int
  lastVisitTime : Option Int
deriving DecidableEq, Repr

/-- Record in the wire format expected by the backend (service_worker.js
lines 1008-1013). -/
structure BackendEntry where
  url : String
  title : String
  visit_count : Int
  last_visit_time : Int
deriving DecidableEq, Repr

/-- JavaScript test `s.trim().length === 0`: the string contains only
whitespace.  (Stated character-wise rather than through `String.trim` so that
it evaluates inside the kernel; the two renderings agree, as `trim` removes
exactly the leading and trailing whitespace.) -/
def jsBlank (s : String) : Bool := s.data.all Char.isWhitespace

/-- Embedding of the map callback of `chatWithBackend` (service_worker.js
lines 974-1014): computes `visit_count` with the 0 default, drops items with a
missing or non-positive `lastVisitTime`, drops items whose url is missing or
blank, otherwise builds the backend record. -/
def toBackendHistoryEntry (item : HistoryItem) : Option BackendEntry :=
  let visitCount : Int :=
    match item.visitCount with
    | none => 0
    | some c => max 0 c
  match item.lastVisitTime with
  | none => none
  | some t =>
    if t ≤ 0 then none
    else
      match item.url with
      | none => none
      | some u =>
        if jsBlank u then none
        else
          some { url := u
                 title := match item.title with
                          | none => ""
                          | some s => s
                 visit_count := visitCount
                 last_visit_time := t }

/-- Embedding of the `.map(...).filter(entry => entry !== null)` pipeline of
`chatWithBackend` (service_worker.js lines 973-1015). -/
def prepareHistoryForBackend (items : List HistoryItem) : List BackendEntry :=
  items.filterMap toBackendHistoryEntry

/-! ## Batch preparation -/

/-- Fixed batch size of `chatWithBackend` (service_worker.js line 1058). -/
def BATCH_SIZE : Nat := 500

/-- Wire message `history_batch` (service_worker.js lines 1065-1070). -/
structure HistoryBatch where
  history : List BackendEntry
  batchNumber : Nat
  totalBatches : Nat
deriving DecidableEq, Repr

/-- Successive slices `l.slice(i, i + B)` for `i = 0, B, 2B, ...`, as produced
by the batch preparation loop of `chatWithBackend` (line 1062). -/
def chunkList (B : Nat) (l : List α) : List (List α) :=
  if hB : B = 0 then []
  else
    match l with
    | [] => []
    | x :: xs => (x :: xs).take B :: chunkList B ((x :: xs).drop B)
termination_by l.length
decreasing_by
  simp only [List.length_drop, List.length_cons]
  omega

/-- Embedding of the batch preparation of `chatWithBackend` (service_worker.js
lines 1057-1077): when the history is non-empty, compute
`totalBatches = ceil(length / 500)` and slice the history into consecutive
batches numbered from 1. -/
def prepareBatches (history : List BackendEntry) : List HistoryBatch :=
  if history.isEmpty then []
  else
    let totalBatches := (history.length + BATCH_SIZE - 1) / BATCH_SIZE
    (chunkList BATCH_SIZE history).enum.map fun p =>
      { history := p.2, batchNumber := p.1 + 1, totalBatches := totalBatches }

/-! ## URL-keyed deduplicating merge of `fetchHistory` -/

/-- JavaScript comparison `a < b` on possibly-undefined numbers: `false`
whenever either side is undefined (NaN comparison), otherwise the integer
comparison. -/
def ltOpt : Option Int → Option Int → Bool
  | some a, some b => decide (a < b)
  | _, _ => false

/-- Lookup in the association-list model of the JavaScript `Map` keyed by
`item.url` (`urlMap.has` / `urlMap.get`). -/
def assocFind : List (Option String × HistoryItem) → Option String → Option HistoryItem
  | [], _ => none
  | (k, v) :: rest, u => if k == u then some v else assocFind rest u

/-- `urlMap.set(key, value)`: replace the binding of `key` if present,
otherwise add one. -/
def assocSet : List (Option String × HistoryItem) → Option String → HistoryItem →
    List (Option String × HistoryItem)
  | [], u, x => [(u, x)]
  | (k, v) :: rest, u, x =>
    if k == u then (k, x) :: rest else (k, v) :: assocSet rest u x

/-- State of the merge loop of `fetchHistory`: the `urlMap` Map and the
`allHistoryItems` array (service_worker.js lines 603-604). -/
structure MergeState where
  urlMap : List (Option String × HistoryItem)
  allItems : List HistoryItem
deriving DecidableEq, Repr

def emptyMergeState : MergeState := { urlMap := [], allItems := [] }

/-- Embedding of one iteration of the dedup loop of `fetchHistory`
(service_worker.js lines 704-717): a new url is pushed, a colliding url with a
strictly larger `lastVisitTime` replaces the existing record in place
(`findIndex` + assignment), otherwise the item is discarded. -/
def mergeStep (st : MergeState) (item : HistoryItem) : MergeState :=
  match assocFind st.urlMap item.url with
  | none =>
    { urlMap := assocSet st.urlMap item.url item
      allItems := st.allItems ++ [item] }
  | some existing =>
    if ltOpt existing.lastVisitTime item.lastVisitTime then
      { urlMap := assocSet st.urlMap item.url item
        allItems := st.allItems.set
          (st.allItems.findIdx fun h => h.url == item.url) item }
    else st

/-- Merging of one batch of returned items into the accumulated state
(the `for (const item of batchItems)` loop). -/
def mergeItems (st : MergeState) (items : List HistoryItem) : MergeState :=
  items.foldl mergeStep st

/-! ## Paginated enumerator `fetchHistory`

The enumerator is embedded from service_worker.js lines 519-733, starting at
the time-range validation (the preceding lines 462-516 only derive
`calculatedStartTime` / `calculatedEndTime` / `shouldUseDateRange` from the
parameters and preferences; these derived values are the inputs of the model).
`chrome.history.search` is modelled by an oracle: the list of responses the
source returns to the successive calls (a missing oracle entry reads as an
empty success).  The model returns the result together with the per-iteration
log of the queries it issued. -/

/-- Hard per-call cap of the Chrome history API (line 535). -/
def CHROME_API_LIMIT : Nat := 10000

/-- Exhaustion threshold of the early-stop check (line 720). -/
def SHORT_BATCH_LIMIT : Nat := 5000

/-- Query passed to one `chrome.history.search` call. -/
structure SearchQuery where
  text : String
  maxResults : Nat
  startTime : Option Int
  endTime : Option Int
deriving DecidableEq, Repr

/-- Response of one `chrome.history.search` call: a result list, or a
`chrome.runtime.lastError` failure. -/
inductive SearchResult where
  | ok (items : List HistoryItem)
  | err
deriving DecidableEq, Repr

/-- Consume the next oracle response; an exhausted oracle reads as an empty
success. -/
def consume : List SearchResult → SearchResult × List SearchResult
  | [] => (SearchResult.ok [], [])
  | r :: rest => (r, rest)

/-- Calls issued by one loop iteration (or by the fast path): the primary
query and, when the primary returned no items on a blank text query, the
broad single-space fallback query (lines 569-591 and 658-680). -/
structure IterEntry where
  primary : SearchQuery
  fallback : Option SearchQuery
deriving DecidableEq, Repr

/-- Flattened list of all queries issued, in order. -/
def callsOf (l : List IterEntry) : List SearchQuery :=
  l.flatMap fun e => e.primary :: e.fallback.toList

/-- Test `!searchText || searchText.trim().length === 0` (lines 570, 659):
`searchText` is always a string here, so only the blank test remains. -/
def blankText (s : String) : Bool := jsBlank s

/-- Inputs of `fetchHistory` after the derivation of lines 478-516:
the search text, whether a date range is in use, the calculated range, and
`targetMaxResults`. -/
structure FetchParams where
  searchText : String
  useRange : Bool
  startTime : Int
  endTime : Int
  target : Nat
deriving DecidableEq, Repr

/-- `numBatches = Math.ceil(targetMaxResults / CHROME_API_LIMIT)`
(lines 609, 614). -/
def numBatchesOf (p : FetchParams) : Nat :=
  (p.target + CHROME_API_LIMIT - 1) / CHROME_API_LIMIT

/-- `timeChunkSize = Math.floor(timeRange / numBatches)` (line 610); the
validation guarantees a positive range, where `Int` division agrees with
`Math.floor`. -/
def timeChunkOf (p : FetchParams) : Int :=
  (p.endTime - p.startTime) / (numBatchesOf p : Int)

/-- Time window of loop iteration `i` (lines 622-637): the `i`-th of
`numBatches` equal sub-windows, the last one ending at `calculatedEndTime`;
no window when date restrictions are off. -/
def bigWindow (p : FetchParams) (i : Nat) : Option (Int × Int) :=
  if p.useRange then
    some (p.startTime + (i : Int) * timeChunkOf p,
          if i = numBatchesOf p - 1 then p.endTime
          else p.startTime + ((i : Int) + 1) * timeChunkOf p)
  else none

/-- Primary query of loop iteration `i` when `stLen` items are accumulated
(lines 642-651): request `min(CHROME_API_LIMIT, remaining)` records over the
iteration's window. -/
def bigQuery (p : FetchParams) (i : Nat) (stLen : Nat) : SearchQuery :=
  { text := p.searchText
    maxResults := min CHROME_API_LIMIT (p.target - stLen)
    startTime := (bigWindow p i).map Prod.fst
    endTime := (bigWindow p i).map Prod.snd }

/-- Fallback query of loop iteration `i` (lines 661-670): the single-space
broad query over the same window. -/
def bigFallbackQuery (p : FetchParams) (i : Nat) (stLen : Nat) : SearchQuery :=
  { text := " "
    maxResults := min CHROME_API_LIMIT (p.target - stLen)
    startTime := (bigWindow p i).map Prod.fst
    endTime := (bigWindow p i).map Prod.snd }

/-- Embedding of the large-request loop of `fetchHistory` (lines 618-729).
`fuel` is the number of remaining iterations (`numBatches - i`); the loop
stops when the iterations or the accumulated items reach their bound, when a
windowed iteration computes an inverted window, when a call fails (the
`catch` breaks, keeping partial results), or when a window returns
significantly fewer items than requested. -/
def bigFetch (p : FetchParams) : Nat → Nat → MergeState → List SearchResult →
    MergeState × List IterEntry
  | 0, _, st, _ => (st, [])
  | fuel + 1, i, st, oracle =>
    if st.allItems.length ≥ p.target then (st, [])
    else
      let batchMax := min CHROME_API_LIMIT (p.target - st.allItems.length)
      let invalidWindow : Bool :=
        match bigWindow p i with
        | some (a, b) => decide (a ≥ b)
        | none => false
      if invalidWindow then (st, [])
      else
        let q : SearchQuery := bigQuery p i st.allItems.length
        match consume oracle with
        | (SearchResult.err, _) => (st, [{ primary := q, fallback := none }])
        | (SearchResult.ok items, o1) =>
          let step : List HistoryItem × Option SearchQuery × List SearchResult :=
            if items.isEmpty && blankText p.searchText then
              let qf : SearchQuery := bigFallbackQuery p i st.allItems.length
              match consume o1 with
              | (SearchResult.err, o2) => ([], some qf, o2)
              | (SearchResult.ok l, o2) => (l, some qf, o2)
            else (items, none, o1)
          let batchItems := step.1
          let entry : IterEntry := { primary := q, fallback := step.2.1 }
          let st' := mergeItems st batchItems
          if batchItems.length < batchMax && batchItems.length < SHORT_BATCH_LIMIT then
            (st', [entry])
          else
            let r := bigFetch p fuel (i + 1) st' step.2.2
            (r.1, entry :: r.2)

/-- Embedding of `fetchHistory` from the validation onwards (lines 519-733):
the early returns on an inverted or future-starting range, the single-call
fast path with its blank-text fallback (lines 544-598), and the large-request
loop (lines 600-733) followed by `slice(0, targetMaxResults)`.  The `Except`
error is the promise rejection of the fast path. -/
def fetchHistoryModel (now : Int) (p : FetchParams) (oracle : List SearchResult) :
    Except Unit (List HistoryItem) × List IterEntry :=
  if p.useRange && decide (p.startTime ≥ p.endTime) then (Except.ok [], [])
  else if p.useRange && decide (p.startTime > now) then (Except.ok [], [])
  else if p.target ≤ CHROME_API_LIMIT then
    let q : SearchQuery :=
      { text := p.searchText, maxResults := p.target
        startTime := some p.startTime, endTime := some p.endTime }
    match consume oracle with
    | (SearchResult.err, _) => (Except.error (), [{ primary := q, fallback := none }])
    | (SearchResult.ok items, o1) =>
      if items.isEmpty && blankText p.searchText then
        let qf : SearchQuery :=
          { text := " ", maxResults := p.target
            startTime := if p.useRange then some p.startTime else none
            endTime := if p.useRange then some p.endTime else none }
        match consume o1 with
        | (SearchResult.err, _) =>
          (Except.ok [], [{ primary := q, fallback := some qf }])
        | (SearchResult.ok fb, _) =>
          (Except.ok fb, [{ primary := q, fallback := some qf }])
      else (Except.ok items, [{ primary := q, fallback := none }])
  else
    let r := bigFetch p (numBatchesOf p) 0 emptyMergeState oracle
    (Except.ok (r.1.allItems.take p.target), r.2)

/-! ## Session state machine of `chatWithBackend`

The WebSocket exchange of `chatWithBackend` (service_worker.js lines
1043-1280) is embedded as a transition system.  Sessions are parameterised by
`n = batchesToSend.length`.  The state carries exactly the mutable variables
of the closure (`isResolved`, `isConnected`, `currentBatchIndex`,
`totalBatchesAcknowledged`, `historyUploadCompleteSent`,
`historyUploadCompleteAcknowledged`, `chatMessageSent`), the socket and timer
status, the promise outcome (with the JavaScript first-settle-wins latch),
plus two ghost components used only by the theorems: a counter of
session-start triggers and a log of sent messages recording the protocol
counters at the moment of sending. -/

/-- Ghost record of one message sent on the socket.  A `batch` entry records
the batch number together with the acknowledgment counter and the start
counter at the moment of sending; an `uploadComplete` entry records the send
and acknowledgment counters; a `chat` entry records whether the completion
acknowledgment had been received. -/
inductive SentMsg where
  | batch (batchNumber ackedAtSend startsAtSend : Nat)
  | uploadComplete (idxAtSend ackedAtSend : Nat)
  | chat (uploadAckAtSend : Bool)
deriving DecidableEq, Repr

/-- Messages the server can deliver to `ws.onmessage` (lines 1141-1261):
the protocol messages, a message of a type matched by no branch
(`unknownType`), and a payload on which `JSON.parse` throws (`malformed`). -/
inductive ServerMsg where
  | connected
  | batchAck
  | uploadCompleteAck
  | chatQueued
  | reply
  | errorMsg
  | unknownType
  | malformed
deriving DecidableEq, Repr

/-- Events a session reacts to: the 1-second welcome grace timer of `onopen`
(lines 1132-1138), an incoming message, `onerror`, `onclose`, and the 5-minute
session timer (lines 1082-1087). -/
inductive SessionEvent where
  | graceTimeout
  | msg (m : ServerMsg)
  | sockError
  | sockClose
  | sessionTimeout
deriving DecidableEq, Repr

/-- How the promise of `chatWithBackend` was settled. -/
inductive SessionOutcome where
  | resolvedReply
  | rejectedBackendError
  | rejectedConnError
  | rejectedClosed
  | rejectedTimeout
  | rejectedNotReady
deriving DecidableEq, Repr

structure SessionState where
  isResolved : Bool
  isConnected : Bool
  currentBatchIndex : Nat
  totalBatchesAcknowledged : Nat
  historyUploadCompleteSent : Bool
  historyUploadCompleteAcknowledged : Bool
  chatMessageSent : Bool
  wsOpen : Bool
  timerActive : Bool
  outcome : Option SessionOutcome
  startCount : Nat
  sentLog : List SentMsg
deriving DecidableEq, Repr

/-- State right after `onopen`: the closure variables at their initial
values, socket open, 5-minute timer armed. -/
def initialState : SessionState :=
  { isResolved := false, isConnected := false, currentBatchIndex := 0
    totalBatchesAcknowledged := 0, historyUploadCompleteSent := false
    historyUploadCompleteAcknowledged := false, chatMessageSent := false
    wsOpen := true, timerActive := true, outcome := none
    startCount := 0, sentLog := [] }

/-- Settling of the promise: the first `resolve`/`reject` call wins, later
calls are no-ops (JavaScript promise semantics). -/
def settle (s : SessionState) (o : SessionOutcome) : SessionState :=
  if s.outcome.isSome then s else { s with outcome := some o }

/-- Embedding of `sendNextBatch` (lines 1090-1126): return once all batches
are sent; on a non-open socket the 100ms retry is collapsed into its eventual
rejection (the socket never reopens); otherwise send the batch
`currentBatchIndex + 1` and advance the index. -/
def sendNextBatch (n : Nat) (s : SessionState) : SessionState :=
  if s.currentBatchIndex ≥ n then s
  else if s.wsOpen then
    { s with
      currentBatchIndex := s.currentBatchIndex + 1
      sentLog := s.sentLog ++
        [SentMsg.batch (s.currentBatchIndex + 1) s.totalBatchesAcknowledged s.startCount] }
  else settle s SessionOutcome.rejectedNotReady

/-- Handler of the `connected` welcome message (lines 1147-1178): mark the
session connected, then either start the batch upload, or — with zero
batches — send `history_upload_complete` immediately. -/
def handleConnected (n : Nat) (s : SessionState) : SessionState :=
  let s := { s with isConnected := true, startCount := s.startCount + 1 }
  if 0 < n then
    if s.wsOpen then sendNextBatch n s
    else settle s SessionOutcome.rejectedNotReady
  else if s.historyUploadCompleteSent then s
  else
    let s := { s with historyUploadCompleteSent := true }
    if s.wsOpen then
      { s with sentLog := s.sentLog ++
          [SentMsg.uploadComplete s.currentBatchIndex s.totalBatchesAcknowledged] }
    else settle s SessionOutcome.rejectedNotReady

/-- Handler of `history_batch_ack` (lines 1179-1215): count the
acknowledgment, send the next batch if batches remain (the 10ms delay of line
1199 collapsed), and send `history_upload_complete` once all batches are both
sent and counted as acknowledged.  A raw `ws.send` on a closed socket
discards the message. -/
def handleBatchAck (n : Nat) (s : SessionState) : SessionState :=
  let s := { s with totalBatchesAcknowledged := s.totalBatchesAcknowledged + 1 }
  let allSent := s.currentBatchIndex ≥ n
  let allAcked := s.totalBatchesAcknowledged ≥ n
  let s := if allSent then s else sendNextBatch n s
  if allSent ∧ allAcked ∧ ¬s.historyUploadCompleteSent then
    let s := { s with historyUploadCompleteSent := true }
    if s.wsOpen then
      { s with sentLog := s.sentLog ++
          [SentMsg.uploadComplete s.currentBatchIndex s.totalBatchesAcknowledged] }
    else s
  else s

/-- Handler of `history_upload_complete_ack` (lines 1216-1234): record the
acknowledgment and send the `chat` request. -/
def handleUploadCompleteAck (s : SessionState) : SessionState :=
  let s := { s with historyUploadCompleteAcknowledged := true }
  if s.chatMessageSent then s
  else
    let s := { s with chatMessageSent := true }
    if s.wsOpen then
      { s with sentLog := s.sentLog ++
          [SentMsg.chat s.historyUploadCompleteAcknowledged] }
    else s

/-- Handler of a `reply` message (lines 1239-1247): clear the timer, close
the socket, resolve if not already resolved. -/
def handleReply (s : SessionState) : SessionState :=
  let s := { s with timerActive := false, wsOpen := false }
  if s.isResolved then s
  else settle { s with isResolved := true } SessionOutcome.resolvedReply

/-- Handler of an `error` message (lines 1248-1257). -/
def handleErrorMsg (s : SessionState) : SessionState :=
  let s := { s with timerActive := false, wsOpen := false }
  if s.isResolved then s
  else settle { s with isResolved := true } SessionOutcome.rejectedBackendError

/-- Handler of `ws.onerror` (lines 1263-1270): clears the timer and rejects;
the socket is not closed here. -/
def handleSockError (s : SessionState) : SessionState :=
  let s := { s with timerActive := false }
  if s.isResolved then s
  else settle { s with isResolved := true } SessionOutcome.rejectedConnError

/-- Handler of `ws.onclose` (lines 1272-1279). -/
def handleSockClose (s : SessionState) : SessionState :=
  let s := { s with wsOpen := false, timerActive := false }
  if s.isResolved then s
  else settle { s with isResolved := true } SessionOutcome.rejectedClosed

/-- Firing of the 5-minute session timer (lines 1082-1087): only an armed
timer fires (and firing spends it); the callback closes the socket and calls
`reject` without setting `isResolved` — faithful to the code. -/
def handleSessionTimeout (s : SessionState) : SessionState :=
  if ¬s.timerActive then s
  else
    let s := { s with timerActive := false }
    if s.isResolved then s
    else settle { s with wsOpen := false } SessionOutcome.rejectedTimeout

/-- Firing of the 1-second welcome grace timer of `onopen` (lines 1132-1138):
if no welcome was processed, batches exist and none was sent yet, mark the
session connected and start sending. -/
def handleGraceTimeout (n : Nat) (s : SessionState) : SessionState :=
  if ¬s.isConnected ∧ 0 < n ∧ s.currentBatchIndex = 0 then
    sendNextBatch n { s with isConnected := true, startCount := s.startCount + 1 }
  else s

/-- One transition of the session.  `chat_queued`, unmatched message types and
unparseable messages are handled by no branch (or only logged) and leave the
state unchanged. -/
def step (n : Nat) (s : SessionState) : SessionEvent → SessionState
  | SessionEvent.graceTimeout => handleGraceTimeout n s
  | SessionEvent.msg ServerMsg.connected => handleConnected n s
  | SessionEvent.msg ServerMsg.batchAck => handleBatchAck n s
  | SessionEvent.msg ServerMsg.uploadCompleteAck => handleUploadCompleteAck s
  | SessionEvent.msg ServerMsg.chatQueued => s
  | SessionEvent.msg ServerMsg.reply => handleReply s
  | SessionEvent.msg ServerMsg.errorMsg => handleErrorMsg s
  | SessionEvent.msg ServerMsg.unknownType => s
  | SessionEvent.msg ServerMsg.malformed => s
  | SessionEvent.sockError => handleSockError s
  | SessionEvent.sockClose => handleSockClose s
  | SessionEvent.sessionTimeout => handleSessionTimeout s

/-- Run a session from a given state through a list of events. -/
def runFrom (n : Nat) (s : SessionState) : List SessionEvent → SessionState
  | [] => s
  | e :: es => runFrom n (step n s e) es

/-- Run a session from the initial state. -/
def run (n : Nat) (events : List SessionEvent) : SessionState :=
  runFrom n initialState events

/-- Admissibility of one delivery in state `s`: a welcome only arrives while
no start trigger has fired yet, and a batch acknowledgment only arrives when
the server was sent more batches than it has acknowledged. -/
def eventAdmissible (s : SessionState) : SessionEvent → Bool
  | SessionEvent.msg ServerMsg.connected => s.startCount == 0
  | SessionEvent.msg ServerMsg.batchAck =>
    s.totalBatchesAcknowledged < s.currentBatchIndex
  | _ => true

/-- Admissible delivery schedules: the server sends the welcome at most once
and never after the grace fallback has already started the upload, and sends
no more batch acknowledgments than batches it was sent.  (The counterexamples
to the one-in-flight claim live exactly outside this set.) -/
def admissible (n : Nat) (s : SessionState) : List SessionEvent → Bool
  | [] => true
  | e :: es => eventAdmissible s e && admissible n (step n s e) es

end ChromiumHistory


namespace ChromiumHistory

/-! ## Chunking lemmas -/

theorem chunkList_nil (B : Nat) : chunkList B ([] : List α) = [] := by
  rw [chunkList]; split <;> rfl

theorem chunkList_cons (B : Nat) (hB : 0 < B) (x : α) (xs : List α) :
    chunkList B (x :: xs) = (x :: xs).take B :: chunkList B ((x :: xs).drop B) := by
  rw [chunkList, dif_neg (by omega)]

theorem chunkList_flatten (B : Nat) (hB : 0 < B) :
    ∀ (n : Nat) (l : List α), l.length ≤ n → (chunkList B l).flatten = l := by
  intro n
  induction n with
  | zero =>
    intro l h
    have hl : l = [] := by cases l with
      | nil => rfl
      | cons a as => simp at h
    subst hl; simp [chunkList_nil]
  | succ n ih =>
    intro l h
    cases l with
    | nil => simp [chunkList_nil]
    | cons x xs =>
      rw [chunkList_cons B hB]
      simp only [List.flatten_cons]
      rw [ih ((x :: xs).drop B) (by
        simp only [List.length_drop, List.length_cons]
        simp only [List.length_cons] at h
        omega)]
      exact List.take_append_drop B (x :: xs)

theorem chunkList_length (B : Nat) (hB : 0 < B) :
    ∀ (n : Nat) (l : List α), l.length ≤ n →
      (chunkList B l).length = (l.length + B - 1) / B := by
  intro n
  induction n with
  | zero =>
    intro l h
    have hl : l = [] := by cases l with
      | nil => rfl
      | cons a as => simp at h
    subst hl
    simp only [chunkList_nil, List.length_nil, Nat.zero_add]
    exact (Nat.div_eq_of_lt (by omega)).symm
  | succ n ih =>
    intro l h
    cases l with
    | nil =>
      simp only [chunkList_nil, List.length_nil, Nat.zero_add]
      exact (Nat.div_eq_of_lt (by omega)).symm
    | cons x xs =>
      rw [chunkList_cons B hB]
      have hdrop : ((x :: xs).drop B).length = xs.length + 1 - B := by
        simp [List.length_drop]
      rw [List.length_cons, ih ((x :: xs).drop B) (by
        simp only [List.length_drop, List.length_cons]
        simp only [List.length_cons] at h
        omega)]
      rw [hdrop, List.length_cons]
      rcases le_or_lt (xs.length + 1) B with hle | hlt
      · have h1 : xs.length + 1 - B = 0 := by omega
        rw [h1]
        have h2 : (0 + B - 1) / B = 0 := Nat.div_eq_of_lt (by omega)
        have h3 : (xs.length + 1 + B - 1) / B = 1 :=
          Nat.div_eq_of_lt_le (by omega) (by omega)
        omega
      · have h1 : xs.length + 1 - B + B - 1 = xs.length + 1 - 1 := by omega
        rw [h1]
        have h2 : xs.length + 1 + B - 1 = (xs.length + 1 - 1) + B := by omega
        rw [h2, Nat.add_div_right _ hB]

theorem chunkList_mem (B : Nat) (hB : 0 < B) :
    ∀ (n : Nat) (l : List α), l.length ≤ n →
      ∀ c ∈ chunkList B l, c ≠ [] ∧ c.length ≤ B := by
  intro n
  induction n with
  | zero =>
    intro l h c hc
    have hl : l = [] := by cases l with
      | nil => rfl
      | cons a as => simp at h
    subst hl; simp [chunkList_nil] at hc
  | succ n ih =>
    intro l h c hc
    cases l with
    | nil => simp [chunkList_nil] at hc
    | cons x xs =>
      rw [chunkList_cons B hB] at hc
      rcases List.mem_cons.mp hc with h1 | h1
      · subst h1
        refine ⟨?_, by simp⟩
        have hlen : (List.take B (x :: xs)).length = min B (xs.length + 1) := by simp
        intro hnil
        rw [hnil] at hlen
        simp at hlen
        omega
      · exact ih ((x :: xs).drop B) (by
          simp only [List.length_drop, List.length_cons]
          simp only [List.length_cons] at h
          omega) c h1

theorem lastLen_step (B n : Nat) (hB : 0 < B) (h : B < n) :
    n - B * ((n + B - 1) / B - 1) = (n - B) - B * ((n - B + B - 1) / B - 1) := by
  have e1 : n + B - 1 = n - B - 1 + B + B := by omega
  have e2 : n - B + B - 1 = n - B - 1 + B := by omega
  rw [e1, Nat.add_div_right _ hB, Nat.add_div_right _ hB, e2, Nat.add_div_right _ hB]
  rw [Nat.add_sub_cancel, Nat.add_sub_cancel, Nat.mul_succ]
  generalize B * ((n - B - 1) / B) = m
  omega

theorem chunkList_getLast (B : Nat) (hB : 0 < B) :
    ∀ (n : Nat) (l : List α), l.length ≤ n → ∀ c,
      (chunkList B l).getLast? = some c →
      c.length = l.length - B * ((l.length + B - 1) / B - 1) := by
  intro n
  induction n with
  | zero =>
    intro l h c hc
    have hl : l = [] := by cases l with
      | nil => rfl
      | cons a as => simp at h
    subst hl; simp [chunkList_nil] at hc
  | succ n ih =>
    intro l h c hc
    cases l with
    | nil => simp [chunkList_nil] at hc
    | cons x xs =>
      rw [chunkList_cons B hB] at hc
      rcases le_or_lt (xs.length + 1) B with hle | hlt
      · have hdrop : (x :: xs).drop B = [] :=
          List.drop_eq_nil_of_le (by simpa using hle)
        rw [hdrop, chunkList_nil] at hc
        simp only [List.getLast?_singleton, Option.some_inj] at hc
        subst hc
        have hk : ((x :: xs).length + B - 1) / B = 1 := by
          have h1 : (x :: xs).length = xs.length + 1 := by simp
          rw [h1]
          exact Nat.div_eq_of_lt_le (by omega) (by omega)
        rw [hk]
        simp only [List.length_take, List.length_cons, Nat.sub_self,
          Nat.mul_zero, Nat.sub_zero]
        omega
      · have hdropne : (x :: xs).drop B ≠ [] := by
          intro hnil
          have hcl := congrArg List.length hnil
          simp at hcl
          omega
        obtain ⟨y, ys, hys⟩ := List.exists_cons_of_ne_nil hdropne
        have hchne : chunkList B ((x :: xs).drop B) ≠ [] := by
          rw [hys, chunkList_cons B hB]
          simp
        obtain ⟨d, ds, hds⟩ := List.exists_cons_of_ne_nil hchne
        rw [hds, List.getLast?_cons_cons, ← hds] at hc
        have hrec := ih ((x :: xs).drop B) (by
          simp only [List.length_drop, List.length_cons]
          simp only [List.length_cons] at h
          omega) c hc
        simp only [List.length_drop, List.length_cons] at hrec
        simp only [List.length_cons]
        rw [lastLen_step B (xs.length + 1) hB hlt]
        exact hrec

/-! ## Claim C3: batch preparation -/

/-- C3: for every non-empty history list of `N` records and the fixed batch
size `B = 500`, the prepared batches number exactly `⌈N/B⌉`, their batch
numbers are exactly `1..⌈N/B⌉` in order, every batch carries
`totalBatches = ⌈N/B⌉`, concatenating the batches' record slices in sequence
order reproduces the original list, and the last batch contains
`N - B*(⌈N/B⌉ - 1)` records. -/
theorem batch_preparation_spec (h : List BackendEntry) (hne : h ≠ []) :
    (prepareBatches h).length = (h.length + BATCH_SIZE - 1) / BATCH_SIZE
    ∧ (prepareBatches h).map (fun b => b.batchNumber)
        = List.range' 1 ((h.length + BATCH_SIZE - 1) / BATCH_SIZE)
    ∧ (∀ b ∈ prepareBatches h,
        b.totalBatches = (h.length + BATCH_SIZE - 1) / BATCH_SIZE
        ∧ 1 ≤ b.batchNumber
        ∧ b.batchNumber ≤ (h.length + BATCH_SIZE - 1) / BATCH_SIZE)
    ∧ ((prepareBatches h).map (fun b => b.history)).flatten = h
    ∧ (∀ b, (prepareBatches h).getLast? = some b →
        b.history.length
          = h.length - BATCH_SIZE * ((h.length + BATCH_SIZE - 1) / BATCH_SIZE - 1)) := by
  have hB : 0 < BATCH_SIZE := by decide
  have hemp : h.isEmpty = false := by
    cases h with
    | nil => exact absurd rfl hne
    | cons a as => rfl
  have hbs : prepareBatches h
      = (chunkList BATCH_SIZE h).enum.map fun p =>
          { history := p.2, batchNumber := p.1 + 1
            totalBatches := (h.length + BATCH_SIZE - 1) / BATCH_SIZE } := by
    rw [prepareBatches, hemp]
    rfl
  have hchlen : (chunkList BATCH_SIZE h).length = (h.length + BATCH_SIZE - 1) / BATCH_SIZE :=
    chunkList_length BATCH_SIZE hB h.length h (le_refl _)
  have hlen : (prepareBatches h).length = (h.length + BATCH_SIZE - 1) / BATCH_SIZE := by
    rw [hbs]
    simpa using hchlen
  have hnums : (prepareBatches h).map (fun b => b.batchNumber)
      = List.range' 1 ((h.length + BATCH_SIZE - 1) / BATCH_SIZE) := by
    rw [hbs, List.map_map]
    have h1 : ((fun b : HistoryBatch => b.batchNumber) ∘ fun p : Nat × List BackendEntry =>
        ({ history := p.2, batchNumber := p.1 + 1
           totalBatches := (h.length + BATCH_SIZE - 1) / BATCH_SIZE } : HistoryBatch))
        = (fun i => i + 1) ∘ Prod.fst := by
      funext p
      rfl
    rw [h1, ← List.map_map, List.enum_map_fst, hchlen, List.range'_eq_map_range]
    simp [Nat.add_comm]
  refine ⟨hlen, hnums, ?_, ?_, ?_⟩
  · intro b hb
    have hmem : b.batchNumber ∈ (prepareBatches h).map (fun b => b.batchNumber) :=
      List.mem_map_of_mem _ hb
    rw [hnums] at hmem
    have hrange := List.mem_range'_1.mp hmem
    refine ⟨?_, hrange.1, by omega⟩
    rw [hbs] at hb
    obtain ⟨p, _, hp⟩ := List.mem_map.mp hb
    rw [← hp]
  · rw [hbs, List.map_map]
    have h1 : ((fun b : HistoryBatch => b.history) ∘ fun p : Nat × List BackendEntry =>
        ({ history := p.2, batchNumber := p.1 + 1
           totalBatches := (h.length + BATCH_SIZE - 1) / BATCH_SIZE } : HistoryBatch))
        = Prod.snd := by
      funext p
      rfl
    rw [h1, List.enum_map_snd]
    exact chunkList_flatten BATCH_SIZE hB h.length h (le_refl _)
  · intro b hb
    rw [hbs, List.getLast?_map] at hb
    cases hlast : (chunkList BATCH_SIZE h).enum.getLast? with
    | none => rw [hlast] at hb; simp at hb
    | some p =>
      rw [hlast] at hb
      simp only [Option.map_some', Option.some_inj] at hb
      have hc : (chunkList BATCH_SIZE h).getLast? = some p.2 := by
        conv_lhs => rw [← List.enum_map_snd (chunkList BATCH_SIZE h)]
        rw [List.getLast?_map, hlast]
        rfl
      have := chunkList_getLast BATCH_SIZE hB h.length h (le_refl _) p.2 hc
      rw [← hb]
      exact this

/-- Concrete record used by witnesses. -/
def wRec : BackendEntry := { url := "u", title := "", visit_count := 0, last_visit_time := 1 }

theorem batch_preparation_spec_witness :
    ([wRec] : List BackendEntry) ≠ [] ∧ (prepareBatches [wRec]).length = 1 :=
  ⟨by decide, by
    have h := (batch_preparation_spec [wRec] (by decide)).1
    exact h.trans (by decide)⟩

end ChromiumHistory


namespace ChromiumHistory

/-! ## Claim C6: record preparation and filtering -/

/-- C6: for every list of raw source history items (of length at most
`targetCount`, as guaranteed by the enumerator), the record list prepared for
transmission has at most `targetCount` entries; every entry has a non-empty
`url`, a `title` defaulting to the empty string, a non-negative `visit_count`
defaulting to 0, and a strictly positive `last_visit_time`; and every item
with a missing or non-positive last-visit timestamp, or with a missing or
blank url, is mapped to `none` (dropped), never emitted with the timestamp
coerced to zero. -/
theorem record_filter_spec (items : List HistoryItem) (targetCount : Nat)
    (hlen : items.length ≤ targetCount) :
    (prepareHistoryForBackend items).length ≤ targetCount
    ∧ (∀ r ∈ prepareHistoryForBackend items,
        r.url ≠ "" ∧ 0 ≤ r.visit_count ∧ 0 < r.last_visit_time)
    ∧ (∀ item r, toBackendHistoryEntry item = some r →
        r.title = (match item.title with | none => "" | some s => s)
        ∧ (item.visitCount = none → r.visit_count = 0))
    ∧ (∀ item, (item.lastVisitTime = none
          ∨ (∃ t, item.lastVisitTime = some t ∧ t ≤ 0)
          ∨ item.url = none
          ∨ (∃ u, item.url = some u ∧ jsBlank u = true)) →
        toBackendHistoryEntry item = none) := by
  have hchar : ∀ (item : HistoryItem) (r : BackendEntry),
      toBackendHistoryEntry item = some r →
      (∃ t, item.lastVisitTime = some t ∧ 0 < t ∧ r.last_visit_time = t)
      ∧ (∃ u, item.url = some u ∧ jsBlank u = false ∧ r.url = u)
      ∧ r.title = (match item.title with | none => "" | some s => s)
      ∧ r.visit_count = (match item.visitCount with | none => 0 | some c => max 0 c) := by
    intro item r hf
    obtain ⟨u, ti, vc, lt⟩ := item
    unfold toBackendHistoryEntry at hf
    cases lt with
    | none => simp at hf
    | some t =>
      simp only at hf
      by_cases ht : t ≤ 0
      · rw [if_pos ht] at hf; simp at hf
      · rw [if_neg ht] at hf
        cases u with
        | none => simp at hf
        | some u' =>
          simp only at hf
          cases hu : jsBlank u' with
          | true => rw [if_pos hu] at hf; simp at hf
          | false =>
            rw [if_neg (by rw [hu]; exact Bool.false_ne_true)] at hf
            simp only [Option.some_inj] at hf
            subst hf
            exact ⟨⟨t, rfl, by omega, rfl⟩, ⟨u', rfl, hu, rfl⟩, rfl, rfl⟩
  refine ⟨?_, ?_, ?_, ?_⟩
  · exact le_trans (List.length_filterMap_le _ _) hlen
  · intro r hr
    obtain ⟨item, _, hf⟩ := List.mem_filterMap.mp hr
    obtain ⟨⟨t, _, ht, hrt⟩, ⟨u, _, hu, hru⟩, _, hvc⟩ := hchar item r hf
    refine ⟨?_, ?_, by omega⟩
    · intro hempty
      rw [hempty] at hru
      rw [← hru] at hu
      exact absurd hu (by decide)
    · rw [hvc]
      cases item.visitCount with
      | none => simp
      | some c => simp [le_max_left]
  · intro item r hf
    obtain ⟨_, _, hti, hvc⟩ := hchar item r hf
    refine ⟨hti, ?_⟩
    intro hnone
    rw [hvc, hnone]
  · intro item hbad
    obtain ⟨u, ti, vc, lt⟩ := item
    unfold toBackendHistoryEntry
    rcases hbad with h1 | ⟨t, h1, h2⟩ | h1 | ⟨u', h1, h2⟩
    · simp only at h1
      subst h1
      rfl
    · simp only at h1
      subst h1
      simp only [if_pos h2]
    · simp only at h1
      subst h1
      cases lt with
      | none => rfl
      | some t =>
        simp only
        by_cases ht : t ≤ 0
        · rw [if_pos ht]
        · rw [if_neg ht]
    · simp only at h1
      subst h1
      cases lt with
      | none => rfl
      | some t =>
        simp only
        by_cases ht : t ≤ 0
        · rw [if_pos ht]
        · rw [if_neg ht]
          simp only [if_pos h2]

/-- Concrete items used by the C6 witness: one valid item and one with a
non-positive timestamp. -/
def wGoodItem : HistoryItem :=
  { url := some "ok", title := none, visitCount := none, lastVisitTime := some 3 }

def wBadItem : HistoryItem :=
  { url := some "ok", title := none, visitCount := none, lastVisitTime := some 0 }

theorem record_filter_spec_witness :
    ([wGoodItem, wBadItem] : List HistoryItem).length ≤ 2
    ∧ (prepareHistoryForBackend [wGoodItem, wBadItem]).length ≤ 2 :=
  ⟨by decide, (record_filter_spec [wGoodItem, wBadItem] 2 (by decide)).1⟩

end ChromiumHistory


namespace ChromiumHistory

/-! ## Claim C8: deduplicating merge keeps the most recent record -/

/-- Replacement of the first element satisfying `p`. -/
def replaceFirst (p : HistoryItem → Bool) (x : HistoryItem) : List HistoryItem → List HistoryItem
  | [] => []
  | y :: rest => if p y then x :: rest else y :: replaceFirst p x rest

theorem set_findIdx_eq_replaceFirst (p : HistoryItem → Bool) (x : HistoryItem) :
    ∀ l : List HistoryItem, l.set (l.findIdx p) x = replaceFirst p x l := by
  intro l
  induction l with
  | nil => rfl
  | cons y rest ih =>
    rw [List.findIdx_cons]
    cases hp : p y with
    | true => simp [replaceFirst, hp]
    | false => simp [replaceFirst, hp, ih]

theorem countP_replaceFirst (p q : HistoryItem → Bool) (x : HistoryItem)
    (hpq : ∀ y, p y = true → q y = q x) :
    ∀ l : List HistoryItem, (replaceFirst p x l).countP q = l.countP q := by
  intro l
  induction l with
  | nil => rfl
  | cons y rest ih =>
    cases hp : p y with
    | true =>
      simp only [replaceFirst, hp, if_pos]
      rw [List.countP_cons, List.countP_cons, hpq y hp]
    | false =>
      simp only [replaceFirst, hp, Bool.false_eq_true, if_neg, not_false_iff]
      rw [List.countP_cons, List.countP_cons, ih]

theorem mem_replaceFirst_self (p : HistoryItem → Bool) (x : HistoryItem) :
    ∀ l : List HistoryItem, (∃ y ∈ l, p y = true) → x ∈ replaceFirst p x l := by
  intro l
  induction l with
  | nil => rintro ⟨y, hy, _⟩; simp at hy
  | cons z rest ih =>
    rintro ⟨y, hy, hpy⟩
    cases hp : p z with
    | true => simp [replaceFirst, hp]
    | false =>
      rcases List.mem_cons.mp hy with h | h
      · subst h; rw [hp] at hpy; exact absurd hpy (by simp)
      · simp only [replaceFirst, hp, Bool.false_eq_true, if_neg, not_false_iff]
        exact List.mem_cons_of_mem z (ih ⟨y, h, hpy⟩)

theorem mem_replaceFirst_of_not (p : HistoryItem → Bool) (x y : HistoryItem)
    (hy : p y = false) :
    ∀ l : List HistoryItem, y ∈ l → y ∈ replaceFirst p x l := by
  intro l
  induction l with
  | nil => intro h; simp at h
  | cons z rest ih =>
    intro h
    cases hp : p z with
    | true =>
      rcases List.mem_cons.mp h with h1 | h1
      · subst h1; rw [hp] at hy; exact absurd hy (by simp)
      · simp only [replaceFirst, hp, if_pos]
        exact List.mem_cons_of_mem x h1
    | false =>
      simp only [replaceFirst, hp, Bool.false_eq_true, if_neg, not_false_iff]
      rcases List.mem_cons.mp h with h1 | h1
      · subst h1; exact List.mem_cons_self y (replaceFirst p x rest)
      · exact List.mem_cons_of_mem z (ih h1)

theorem assocFind_assocSet_self (u : Option String) (x : HistoryItem) :
    ∀ m, assocFind (assocSet m u x) u = some x := by
  intro m
  induction m with
  | nil => simp [assocSet, assocFind]
  | cons kv rest ih =>
    obtain ⟨k, v⟩ := kv
    by_cases hk : k = u
    · subst hk
      simp [assocSet, assocFind]
    · have hk' : (k == u) = false := beq_eq_false_iff_ne.mpr hk
      simp only [assocSet, hk', Bool.false_eq_true, if_neg, not_false_iff,
        assocFind]
      exact ih

theorem assocFind_assocSet_other (u u' : Option String) (x : HistoryItem)
    (hne : u' ≠ u) :
    ∀ m, assocFind (assocSet m u x) u' = assocFind m u' := by
  intro m
  induction m with
  | nil =>
    simp only [assocSet, assocFind]
    rw [if_neg (by simp [Ne.symm hne])]
  | cons kv rest ih =>
    obtain ⟨k, v⟩ := kv
    cases hk : (k == u) with
    | true =>
      have hkeq : k = u := by simpa using hk
      have hku : (k == u') = false := by
        subst hkeq
        exact beq_eq_false_iff_ne.mpr (Ne.symm hne)
      simp only [assocSet, hk, if_pos, assocFind, hku, Bool.false_eq_true,
        if_neg, not_false_iff]
    | false =>
      simp only [assocSet, hk, Bool.false_eq_true, if_neg, not_false_iff]
      simp only [assocFind]
      cases hku : (k == u') with
      | true => simp [hku]
      | false => simp [hku, ih]

theorem ltOpt_irrefl (a : Option Int) : ltOpt a a = false := by
  cases a <;> simp [ltOpt]

theorem ltOpt_asym_trans (a b c : Option Int)
    (h1 : ltOpt a b = false) (h2 : ltOpt a c = true) : ltOpt c b = false := by
  cases a with
  | none => simp [ltOpt] at h2
  | some x =>
    cases c with
    | none => simp [ltOpt] at h2
    | some z =>
      cases b with
      | none => simp [ltOpt]
      | some y =>
        simp only [ltOpt, decide_eq_true_eq, decide_eq_false_iff_not] at h1 h2 ⊢
        omega

/-- Number of records in `l` whose url equals `u`. -/
def keyCount (u : Option String) (l : List HistoryItem) : Nat :=
  l.countP fun h => h.url == u

/-- Invariant of the dedup loop: the map and the array agree (each url has a
binding exactly when the array holds exactly one record with that url, and the
bound record is in the array), every binding stems from a processed item none
of which strictly beats it, and every processed item has a binding. -/
def MergeInv (st : MergeState) (seen : List HistoryItem) : Prop :=
  (∀ u, assocFind st.urlMap u = none → keyCount u st.allItems = 0)
  ∧ (∀ u e, assocFind st.urlMap u = some e →
      keyCount u st.allItems = 1 ∧ e ∈ st.allItems ∧ e.url = u ∧ e ∈ seen
      ∧ ∀ j ∈ seen, j.url = u → ltOpt e.lastVisitTime j.lastVisitTime = false)
  ∧ (∀ j ∈ seen, assocFind st.urlMap j.url ≠ none)

theorem mergeStep_inv (st : MergeState) (seen : List HistoryItem)
    (item : HistoryItem) (h : MergeInv st seen) :
    MergeInv (mergeStep st item) (seen ++ [item]) := by
  obtain ⟨h1, h2, h3⟩ := h
  cases hfind : assocFind st.urlMap item.url with
  | none =>
    have hcount0 : keyCount item.url st.allItems = 0 := h1 item.url hfind
    refine ⟨?_, ?_, ?_⟩
    · intro u hu
      rw [mergeStep, hfind] at hu ⊢
      simp only at hu ⊢
      by_cases huu : u = item.url
      · subst huu
        rw [assocFind_assocSet_self] at hu
        exact absurd hu (by simp)
      · rw [assocFind_assocSet_other item.url u item huu st.urlMap] at hu
        rw [keyCount, List.countP_append]
        have hif : (fun h => h.url == u) item = false := by
          simpa using fun hh => huu (by rw [← hh])
        rw [← keyCount, h1 u hu]
        simp [hif]
    · intro u e hu
      rw [mergeStep, hfind] at hu ⊢
      simp only at hu ⊢
      by_cases huu : u = item.url
      · subst huu
        rw [assocFind_assocSet_self] at hu
        have he : e = item := by simpa using hu.symm
        subst he
        refine ⟨?_, by simp, rfl, by simp, ?_⟩
        · rw [keyCount, List.countP_append, ← keyCount, hcount0]
          simp
        · intro j hj hjurl
          rcases List.mem_append.mp hj with hjs | hji
          · exact absurd hfind (by rw [← hjurl]; exact h3 j hjs)
          · have : j = e := by simpa using hji
            subst this
            exact ltOpt_irrefl _
      · rw [assocFind_assocSet_other item.url u item huu st.urlMap] at hu
        obtain ⟨hc, hmem, hurl, hseen, hmax⟩ := h2 u e hu
        refine ⟨?_, List.mem_append_left _ hmem, hurl, List.mem_append_left _ hseen, ?_⟩
        · rw [keyCount, List.countP_append, ← keyCount, hc]
          have : (fun h => h.url == u) item = false := by
            simpa using fun hh => huu (by rw [← hh])
          simp [this]
        · intro j hj hjurl
          rcases List.mem_append.mp hj with hjs | hji
          · exact hmax j hjs hjurl
          · have : j = item := by simpa using hji
            subst this
            exact absurd hjurl (fun hh => huu (by rw [← hh]))
    · intro j hj
      rw [mergeStep, hfind]
      simp only
      rcases List.mem_append.mp hj with hjs | hji
      · by_cases huu : j.url = item.url
        · rw [huu, assocFind_assocSet_self]
          simp
        · rw [assocFind_assocSet_other item.url j.url item huu st.urlMap]
          exact h3 j hjs
      · have : j = item := by simpa using hji
        subst this
        rw [assocFind_assocSet_self]
        simp
  | some existing =>
    obtain ⟨hc1, hmem1, hurl1, hseen1, hmax1⟩ := h2 item.url existing hfind
    cases hlt : ltOpt existing.lastVisitTime item.lastVisitTime with
    | false =>
      have hst : mergeStep st item = st := by
        rw [mergeStep, hfind]
        simp [hlt]
      rw [hst]
      refine ⟨h1, ?_, ?_⟩
      · intro u e hu
        obtain ⟨hc, hmem, hurl, hseen, hmax⟩ := h2 u e hu
        refine ⟨hc, hmem, hurl, List.mem_append_left _ hseen, ?_⟩
        intro j hj hjurl
        rcases List.mem_append.mp hj with hjs | hji
        · exact hmax j hjs hjurl
        · have : j = item := by simpa using hji
          subst this
          have : u = j.url := hjurl.symm
          subst this
          have he : e = existing := by
            rw [hfind] at hu
            simpa using hu.symm
          subst he
          exact hlt
      · intro j hj
        rcases List.mem_append.mp hj with hjs | hji
        · exact h3 j hjs
        · have : j = item := by simpa using hji
          subst this
          rw [hfind]
          simp
    | true =>
      have hst : mergeStep st item
          = { urlMap := assocSet st.urlMap item.url item
              allItems := replaceFirst (fun h => h.url == item.url) item st.allItems } := by
        rw [mergeStep, hfind]
        simp only [hlt, if_pos]
        rw [set_findIdx_eq_replaceFirst]
      rw [hst]
      have hpq : ∀ (u : Option String) (y : HistoryItem),
          (fun h => h.url == item.url) y = true →
          (fun h => h.url == u) y = (fun h => h.url == u) item := by
        intro u y hy
        simp only at hy ⊢
        have : y.url = item.url := by simpa using hy
        rw [this]
      refine ⟨?_, ?_, ?_⟩
      · intro u hu
        simp only at hu
        by_cases huu : u = item.url
        · subst huu
          rw [assocFind_assocSet_self] at hu
          exact absurd hu (by simp)
        · rw [assocFind_assocSet_other item.url u item huu st.urlMap] at hu
          rw [keyCount, countP_replaceFirst _ _ _ (hpq u), ← keyCount]
          exact h1 u hu
      · intro u e hu
        simp only at hu ⊢
        by_cases huu : u = item.url
        · subst huu
          rw [assocFind_assocSet_self] at hu
          have he : e = item := by simpa using hu.symm
          subst he
          refine ⟨?_, ?_, rfl, by simp, ?_⟩
          · rw [keyCount, countP_replaceFirst _ _ _ (hpq e.url), ← keyCount]
            exact hc1
          · exact mem_replaceFirst_self _ _ _ ⟨existing, hmem1, by simpa using hurl1⟩
          · intro j hj hjurl
            rcases List.mem_append.mp hj with hjs | hji
            · exact ltOpt_asym_trans _ _ _ (hmax1 j hjs hjurl) hlt
            · have : j = e := by simpa using hji
              subst this
              exact ltOpt_irrefl _
        · rw [assocFind_assocSet_other item.url u item huu st.urlMap] at hu
          obtain ⟨hc, hmem, hurl, hseen, hmax⟩ := h2 u e hu
          refine ⟨?_, ?_, hurl, List.mem_append_left _ hseen, ?_⟩
          · rw [keyCount, countP_replaceFirst _ _ _ (hpq u), ← keyCount]
            exact hc
          · refine mem_replaceFirst_of_not _ _ _ ?_ _ hmem
            show (e.url == item.url) = false
            rw [hurl]
            exact beq_eq_false_iff_ne.mpr huu
          · intro j hj hjurl
            rcases List.mem_append.mp hj with hjs | hji
            · exact hmax j hjs hjurl
            · have : j = item := by simpa using hji
              subst this
              exact absurd hjurl (fun hh => huu (by rw [← hh]))
      · intro j hj
        simp only
        rcases List.mem_append.mp hj with hjs | hji
        · by_cases huu : j.url = item.url
          · rw [huu, assocFind_assocSet_self]
            simp
          · rw [assocFind_assocSet_other item.url j.url item huu st.urlMap]
            exact h3 j hjs
        · have : j = item := by simpa using hji
          subst this
          rw [assocFind_assocSet_self]
          simp

theorem mergeItems_inv :
    ∀ (items : List HistoryItem) (st : MergeState) (seen : List HistoryItem),
      MergeInv st seen → MergeInv (mergeItems st items) (seen ++ items) := by
  intro items
  induction items with
  | nil => intro st seen h; simpa using h
  | cons x xs ih =>
    intro st seen h
    have h1 := mergeStep_inv st seen x h
    have h2 := ih (mergeStep st x) (seen ++ [x]) h1
    simpa [mergeItems, List.append_assoc] using h2

theorem mergeInv_empty : MergeInv emptyMergeState [] := by
  refine ⟨?_, ?_, ?_⟩
  · intro u _; rfl
  · intro u e hu; simp [emptyMergeState, assocFind] at hu
  · intro j hj; simp at hj

/-- C8: for every sequence of partition results merged during enumeration
(processed as one item stream) and every url key occurring in it, the merged
result keeps exactly one record for that key; the survivor is one of the
colliding records and its `lastVisitTime` is an upper bound of (hence the
maximum over) all colliding records' timestamps. -/
theorem merge_keeps_max_spec (items : List HistoryItem) (u : Option String)
    (x : HistoryItem) (hx : x ∈ items) (hxu : x.url = u) :
    ∃ e, e ∈ (mergeItems emptyMergeState items).allItems
      ∧ e.url = u
      ∧ keyCount u (mergeItems emptyMergeState items).allItems = 1
      ∧ e ∈ items
      ∧ (∀ j ∈ items, j.url = u →
          ∀ tj te, j.lastVisitTime = some tj → e.lastVisitTime = some te →
            tj ≤ te) := by
  have hinv := mergeItems_inv items emptyMergeState [] mergeInv_empty
  simp only [List.nil_append] at hinv
  obtain ⟨h1, h2, h3⟩ := hinv
  have hne := h3 x hx
  cases hfind : assocFind (mergeItems emptyMergeState items).urlMap x.url with
  | none => exact absurd hfind hne
  | some e =>
    obtain ⟨hc, hmem, hurl, hseen, hmax⟩ := h2 x.url e hfind
    subst hxu
    refine ⟨e, hmem, hurl, hc, hseen, ?_⟩
    intro j hj hjurl tj te hjt het
    have hm := hmax j hj hjurl
    rw [het, hjt] at hm
    simp only [ltOpt, decide_eq_false_iff_not] at hm
    omega

/-- Items used by the C8 witness: two records for the same url. -/
def mItemLow : HistoryItem :=
  { url := some "a", title := none, visitCount := none, lastVisitTime := some 5 }

def mItemHigh : HistoryItem :=
  { url := some "a", title := none, visitCount := none, lastVisitTime := some 9 }

theorem merge_keeps_max_spec_witness :
    keyCount (some "a") (mergeItems emptyMergeState [mItemLow, mItemHigh]).allItems = 1 := by
  obtain ⟨e, _, _, hc, _, _⟩ :=
    merge_keeps_max_spec [mItemLow, mItemHigh] (some "a") mItemLow (by decide) rfl
  exact hc

end ChromiumHistory


namespace ChromiumHistory

/-! ## Session lemmas and claim C1: completion ordering -/

theorem handleBatchAck_eq (n : Nat) (s : SessionState) :
    handleBatchAck n s =
      (if s.currentBatchIndex ≥ n then
        (if s.totalBatchesAcknowledged + 1 ≥ n ∧ ¬s.historyUploadCompleteSent = true then
          (if s.wsOpen then
            { s with
              totalBatchesAcknowledged := s.totalBatchesAcknowledged + 1
              historyUploadCompleteSent := true
              sentLog := s.sentLog ++
                [SentMsg.uploadComplete s.currentBatchIndex (s.totalBatchesAcknowledged + 1)] }
          else
            { s with
              totalBatchesAcknowledged := s.totalBatchesAcknowledged + 1
              historyUploadCompleteSent := true })
        else { s with totalBatchesAcknowledged := s.totalBatchesAcknowledged + 1 })
      else
        sendNextBatch n
          { s with totalBatchesAcknowledged := s.totalBatchesAcknowledged + 1 }) := by
  simp only [handleBatchAck]
  by_cases h1 : s.currentBatchIndex ≥ n
  all_goals by_cases h2 : s.totalBatchesAcknowledged + 1 ≥ n ∧ ¬s.historyUploadCompleteSent = true
  all_goals simp [h1, h2]

theorem settle_sentLog (s : SessionState) (o : SessionOutcome) :
    (settle s o).sentLog = s.sentLog := by
  unfold settle; split <;> rfl

theorem settle_currentBatchIndex (s : SessionState) (o : SessionOutcome) :
    (settle s o).currentBatchIndex = s.currentBatchIndex := by
  unfold settle; split <;> rfl

theorem settle_totalBatchesAcknowledged (s : SessionState) (o : SessionOutcome) :
    (settle s o).totalBatchesAcknowledged = s.totalBatchesAcknowledged := by
  unfold settle; split <;> rfl

theorem settle_startCount (s : SessionState) (o : SessionOutcome) :
    (settle s o).startCount = s.startCount := by
  unfold settle; split <;> rfl

theorem mem_log_sendNextBatch (n : Nat) (s : SessionState) (m : SentMsg)
    (hm : m ∈ (sendNextBatch n s).sentLog) :
    m ∈ s.sentLog
    ∨ (m = SentMsg.batch (s.currentBatchIndex + 1) s.totalBatchesAcknowledged s.startCount
        ∧ s.currentBatchIndex < n) := by
  unfold sendNextBatch at hm
  split at hm
  · exact Or.inl hm
  · split at hm
    · simp only at hm
      rcases List.mem_append.mp hm with h | h
      · exact Or.inl h
      · exact Or.inr ⟨by simpa using h, by omega⟩
    · rw [settle_sentLog] at hm
      exact Or.inl hm


theorem step_eq_grace (n : Nat) (s : SessionState) :
    step n s SessionEvent.graceTimeout = handleGraceTimeout n s := rfl

theorem step_eq_connected (n : Nat) (s : SessionState) :
    step n s (SessionEvent.msg ServerMsg.connected) = handleConnected n s := rfl

theorem step_eq_batchAck (n : Nat) (s : SessionState) :
    step n s (SessionEvent.msg ServerMsg.batchAck) = handleBatchAck n s := rfl

theorem step_eq_uploadCompleteAck (n : Nat) (s : SessionState) :
    step n s (SessionEvent.msg ServerMsg.uploadCompleteAck) = handleUploadCompleteAck s := rfl

theorem step_eq_reply (n : Nat) (s : SessionState) :
    step n s (SessionEvent.msg ServerMsg.reply) = handleReply s := rfl

theorem step_eq_errorMsg (n : Nat) (s : SessionState) :
    step n s (SessionEvent.msg ServerMsg.errorMsg) = handleErrorMsg s := rfl

theorem step_eq_sockError (n : Nat) (s : SessionState) :
    step n s SessionEvent.sockError = handleSockError s := rfl

theorem step_eq_sockClose (n : Nat) (s : SessionState) :
    step n s SessionEvent.sockClose = handleSockClose s := rfl

theorem step_eq_sessionTimeout (n : Nat) (s : SessionState) :
    step n s SessionEvent.sessionTimeout = handleSessionTimeout s := rfl

/-- Ordering predicate of claim C1 on a logged message: an `uploadComplete`
entry was sent with all `n` batches sent and at least `n` acknowledgments
counted, a `chat` entry was sent after the completion acknowledgment had been
received. -/
def sentOk (n : Nat) : SentMsg → Prop
  | SentMsg.batch _ _ _ => True
  | SentMsg.uploadComplete i a => n ≤ i ∧ n ≤ a
  | SentMsg.chat f => f = true

theorem sentOk_step (n : Nat) (s : SessionState) (e : SessionEvent)
    (h : ∀ m ∈ s.sentLog, sentOk n m) :
    ∀ m ∈ (step n s e).sentLog, sentOk n m := by
  cases e with
  | graceTimeout =>
    intro m hm
    rw [step_eq_grace] at hm
    unfold handleGraceTimeout at hm
    split at hm
    · rcases mem_log_sendNextBatch _ _ _ hm with h1 | ⟨h1, _⟩
      · exact h m h1
      · subst h1; trivial
    · exact h m hm
  | sockError =>
    intro m hm
    rw [step_eq_sockError] at hm
    unfold handleSockError at hm
    simp only at hm
    split at hm
    · exact h m hm
    · rw [settle_sentLog] at hm
      exact h m hm
  | sockClose =>
    intro m hm
    rw [step_eq_sockClose] at hm
    unfold handleSockClose at hm
    simp only at hm
    split at hm
    · exact h m hm
    · rw [settle_sentLog] at hm
      exact h m hm
  | sessionTimeout =>
    intro m hm
    rw [step_eq_sessionTimeout] at hm
    unfold handleSessionTimeout at hm
    split at hm
    · exact h m hm
    · simp only at hm
      split at hm
      · exact h m hm
      · rw [settle_sentLog] at hm
        exact h m hm
  | msg mm =>
    cases mm with
    | chatQueued => exact h
    | unknownType => exact h
    | malformed => exact h
    | reply =>
      intro m hm
      rw [step_eq_reply] at hm
      unfold handleReply at hm
      simp only at hm
      split at hm
      · exact h m hm
      · rw [settle_sentLog] at hm
        exact h m hm
    | errorMsg =>
      intro m hm
      rw [step_eq_errorMsg] at hm
      unfold handleErrorMsg at hm
      simp only at hm
      split at hm
      · exact h m hm
      · rw [settle_sentLog] at hm
        exact h m hm
    | uploadCompleteAck =>
      intro m hm
      rw [step_eq_uploadCompleteAck] at hm
      unfold handleUploadCompleteAck at hm
      simp only at hm
      split at hm
      · exact h m hm
      · split at hm
        · simp only at hm
          rcases List.mem_append.mp hm with h1 | h1
          · exact h m h1
          · have : m = SentMsg.chat true := by simpa using h1
            subst this
            rfl
        · exact h m hm
    | connected =>
      intro m hm
      rw [step_eq_connected] at hm
      unfold handleConnected at hm
      simp only at hm
      split at hm
      · -- batches exist
        split at hm
        · rcases mem_log_sendNextBatch _ _ _ hm with h1 | ⟨h1, _⟩
          · exact h m h1
          · subst h1; trivial
        · rw [settle_sentLog] at hm
          exact h m hm
      · -- zero batches
        rename_i hn
        have hn0 : n = 0 := by omega
        split at hm
        · exact h m hm
        · split at hm
          · simp only at hm
            rcases List.mem_append.mp hm with h1 | h1
            · exact h m h1
            · have : m = SentMsg.uploadComplete s.currentBatchIndex
                  s.totalBatchesAcknowledged := by simpa using h1
              subst this
              exact ⟨by omega, by omega⟩
          · rw [settle_sentLog] at hm
            exact h m hm
    | batchAck =>
      intro m hm
      rw [step_eq_batchAck, handleBatchAck_eq] at hm
      split at hm
      · rename_i h1
        split at hm
        · rename_i h2
          split at hm
          · rcases List.mem_append.mp hm with ho | hnew
            · exact h m ho
            · have hh : m = SentMsg.uploadComplete s.currentBatchIndex
                  (s.totalBatchesAcknowledged + 1) := by simpa using hnew
              subst hh
              exact ⟨h1, h2.1⟩
          · exact h m hm
        · exact h m hm
      · rcases mem_log_sendNextBatch _ _ _ hm with h2 | ⟨h2, _⟩
        · exact h m h2
        · subst h2; trivial

theorem sentOk_runFrom (n : Nat) :
    ∀ (events : List SessionEvent) (s : SessionState),
      (∀ m ∈ s.sentLog, sentOk n m) →
      ∀ m ∈ (runFrom n s events).sentLog, sentOk n m := by
  intro events
  induction events with
  | nil => intro s h; exact h
  | cons e es ih =>
    intro s h
    exact ih (step n s e) (sentOk_step n s e h)

theorem settle_ackFlag (s : SessionState) (o : SessionOutcome) :
    (settle s o).historyUploadCompleteAcknowledged = s.historyUploadCompleteAcknowledged := by
  unfold settle; split <;> rfl

theorem sendNextBatch_ackFlag (n : Nat) (s : SessionState) :
    (sendNextBatch n s).historyUploadCompleteAcknowledged
      = s.historyUploadCompleteAcknowledged := by
  unfold sendNextBatch
  split
  · rfl
  · split
    · rfl
    · exact settle_ackFlag _ _

theorem step_ackFlag (n : Nat) (s : SessionState) (e : SessionEvent)
    (he : e ≠ SessionEvent.msg ServerMsg.uploadCompleteAck) :
    (step n s e).historyUploadCompleteAcknowledged
      = s.historyUploadCompleteAcknowledged := by
  cases e with
  | graceTimeout =>
    rw [step_eq_grace]
    unfold handleGraceTimeout
    split
    · exact sendNextBatch_ackFlag _ _
    · rfl
  | sockError =>
    rw [step_eq_sockError]
    simp only [handleSockError]
    split
    · rfl
    · exact settle_ackFlag _ _
  | sockClose =>
    rw [step_eq_sockClose]
    simp only [handleSockClose]
    split
    · rfl
    · exact settle_ackFlag _ _
  | sessionTimeout =>
    rw [step_eq_sessionTimeout]
    simp only [handleSessionTimeout]
    split
    · rfl
    · split
      · rfl
      · exact settle_ackFlag _ _
  | msg mm =>
    cases mm with
    | chatQueued => rfl
    | unknownType => rfl
    | malformed => rfl
    | uploadCompleteAck => exact absurd rfl he
    | reply =>
      rw [step_eq_reply]
      simp only [handleReply]
      split
      · rfl
      · exact settle_ackFlag _ _
    | errorMsg =>
      rw [step_eq_errorMsg]
      simp only [handleErrorMsg]
      split
      · rfl
      · exact settle_ackFlag _ _
    | connected =>
      rw [step_eq_connected]
      simp only [handleConnected]
      split
      · split
        · exact sendNextBatch_ackFlag _ _
        · exact settle_ackFlag _ _
      · split
        · rfl
        · split
          · rfl
          · exact settle_ackFlag _ _
    | batchAck =>
      rw [step_eq_batchAck, handleBatchAck_eq]
      split
      · split
        · split
          · rfl
          · rfl
        · rfl
      · exact sendNextBatch_ackFlag _ _

theorem runFrom_ackFlag (n : Nat) :
    ∀ (events : List SessionEvent) (s : SessionState),
      (runFrom n s events).historyUploadCompleteAcknowledged = true →
      s.historyUploadCompleteAcknowledged = true
      ∨ SessionEvent.msg ServerMsg.uploadCompleteAck ∈ events := by
  intro events
  induction events with
  | nil => intro s h; exact Or.inl h
  | cons e es ih =>
    intro s h
    by_cases he : e = SessionEvent.msg ServerMsg.uploadCompleteAck
    · exact Or.inr (by rw [he]; exact List.mem_cons_self _ _)
    · rcases ih (step n s e) h with h1 | h1
      · rw [step_ackFlag n s e he] at h1
        exact Or.inl h1
      · exact Or.inr (List.mem_cons_of_mem _ h1)

/-- C1: for every session (any number `n` of prepared batches, any delivery
schedule), every message the client sent respects the completion ordering:
each `history_upload_complete` entry was sent with all `n` batches already
sent and at least `n` batch acknowledgments counted (with `n = 0` this is the
immediate send once the session is ready), and each `chat` entry was sent
only after `history_upload_complete_ack` had been processed — moreover, the
acknowledged flag can only be set by an actual `history_upload_complete_ack`
message in the schedule. -/
theorem completion_ordering_spec (n : Nat) (events : List SessionEvent) :
    (∀ m ∈ (run n events).sentLog, sentOk n m)
    ∧ ((run n events).historyUploadCompleteAcknowledged = true →
        SessionEvent.msg ServerMsg.uploadCompleteAck ∈ events) := by
  constructor
  · exact sentOk_runFrom n events initialState (by intro m hm; simp [initialState] at hm)
  · intro hflag
    rcases runFrom_ackFlag n events initialState hflag with h1 | h1
    · simp [initialState] at h1
    · exact h1

theorem completion_ordering_spec_witness :
    sentOk 0 (SentMsg.uploadComplete 0 0) :=
  (completion_ordering_spec 0 [SessionEvent.msg ServerMsg.connected]).1
    (SentMsg.uploadComplete 0 0) (by decide)

end ChromiumHistory


namespace ChromiumHistory

/-! ## Claim C10: the promise settles at most once -/

/-- Terminal events of a session: a `reply` or `error` message, a socket
error or close, or the 5-minute timeout. -/
def isTerminalEvent (e : SessionEvent) : Prop :=
  e = SessionEvent.msg ServerMsg.reply ∨ e = SessionEvent.msg ServerMsg.errorMsg
    ∨ e = SessionEvent.sockError ∨ e = SessionEvent.sockClose
    ∨ e = SessionEvent.sessionTimeout

theorem settle_outcome_some (s : SessionState) (o o' : SessionOutcome)
    (h : s.outcome = some o) : (settle s o').outcome = some o := by
  unfold settle
  rw [if_pos (by rw [h]; rfl)]
  exact h

theorem sendNextBatch_outcome_some (n : Nat) (s : SessionState) (o : SessionOutcome)
    (h : s.outcome = some o) : (sendNextBatch n s).outcome = some o := by
  unfold sendNextBatch
  split
  · exact h
  · split
    · exact h
    · exact settle_outcome_some _ _ _ h

theorem step_outcome_some (n : Nat) (s : SessionState) (e : SessionEvent)
    (o : SessionOutcome) (h : s.outcome = some o) :
    (step n s e).outcome = some o := by
  cases e with
  | graceTimeout =>
    rw [step_eq_grace]
    unfold handleGraceTimeout
    split
    · exact sendNextBatch_outcome_some _ _ _ h
    · exact h
  | sockError =>
    rw [step_eq_sockError]
    simp only [handleSockError]
    split
    · exact h
    · exact settle_outcome_some _ _ _ h
  | sockClose =>
    rw [step_eq_sockClose]
    simp only [handleSockClose]
    split
    · exact h
    · exact settle_outcome_some _ _ _ h
  | sessionTimeout =>
    rw [step_eq_sessionTimeout]
    simp only [handleSessionTimeout]
    split
    · exact h
    · split
      · exact h
      · exact settle_outcome_some _ _ _ h
  | msg mm =>
    cases mm with
    | chatQueued => exact h
    | unknownType => exact h
    | malformed => exact h
    | reply =>
      rw [step_eq_reply]
      simp only [handleReply]
      split
      · exact h
      · exact settle_outcome_some _ _ _ h
    | errorMsg =>
      rw [step_eq_errorMsg]
      simp only [handleErrorMsg]
      split
      · exact h
      · exact settle_outcome_some _ _ _ h
    | uploadCompleteAck =>
      rw [step_eq_uploadCompleteAck]
      simp only [handleUploadCompleteAck]
      split
      · exact h
      · split
        · exact h
        · exact h
    | connected =>
      rw [step_eq_connected]
      simp only [handleConnected]
      split
      · split
        · exact sendNextBatch_outcome_some _ _ _ h
        · exact settle_outcome_some _ _ _ h
      · split
        · exact h
        · split
          · exact h
          · exact settle_outcome_some _ _ _ h
    | batchAck =>
      rw [step_eq_batchAck, handleBatchAck_eq]
      split
      · split
        · split
          · exact h
          · exact h
        · exact h
      · exact sendNextBatch_outcome_some _ _ _ h

theorem runFrom_append (n : Nat) :
    ∀ (es more : List SessionEvent) (s : SessionState),
      runFrom n s (es ++ more) = runFrom n (runFrom n s es) more := by
  intro es
  induction es with
  | nil => intro more s; rfl
  | cons e es ih => intro more s; exact ih more (step n s e)

theorem runFrom_outcome_some (n : Nat) :
    ∀ (events : List SessionEvent) (s : SessionState) (o : SessionOutcome),
      s.outcome = some o → (runFrom n s events).outcome = some o := by
  intro events
  induction events with
  | nil => intro s o h; exact h
  | cons e es ih => intro s o h; exact ih (step n s e) o (step_outcome_some n s e o h)

theorem settle_timerActive (s : SessionState) (o : SessionOutcome) :
    (settle s o).timerActive = s.timerActive := by
  unfold settle; split <;> rfl

/-- C10: the promise of `chatWithBackend` is settled at most once — once any
event has settled it with outcome `o`, no later delivery of replies, errors,
closes or timeouts can change or duplicate that outcome — and every terminal
event (reply, error message, socket error, socket close, session timeout)
leaves the 5-minute timer cleared or spent. -/
theorem promise_single_settle_spec :
    (∀ (n : Nat) (events more : List SessionEvent) (o : SessionOutcome),
        (run n events).outcome = some o →
        (run n (events ++ more)).outcome = some o)
    ∧ (∀ (n : Nat) (s : SessionState) (e : SessionEvent), isTerminalEvent e →
        (step n s e).timerActive = false) := by
  constructor
  · intro n events more o h
    rw [run, runFrom_append]
    exact runFrom_outcome_some n more _ o h
  · intro n s e he
    rcases he with h | h | h | h | h
    all_goals subst h
    · rw [step_eq_reply]
      simp only [handleReply]
      split
      · rfl
      · rw [settle_timerActive]
    · rw [step_eq_errorMsg]
      simp only [handleErrorMsg]
      split
      · rfl
      · rw [settle_timerActive]
    · rw [step_eq_sockError]
      simp only [handleSockError]
      split
      · rfl
      · rw [settle_timerActive]
    · rw [step_eq_sockClose]
      simp only [handleSockClose]
      split
      · rfl
      · rw [settle_timerActive]
    · rw [step_eq_sessionTimeout]
      simp only [handleSessionTimeout]
      split
      · rename_i hta
        simpa using hta
      · split
        · rfl
        · rw [settle_timerActive]

theorem promise_single_settle_spec_witness :
    isTerminalEvent (SessionEvent.msg ServerMsg.reply)
    ∧ (run 0 [SessionEvent.msg ServerMsg.reply, SessionEvent.msg ServerMsg.errorMsg]).outcome
        = some SessionOutcome.resolvedReply :=
  ⟨Or.inl rfl,
    promise_single_settle_spec.1 0 [SessionEvent.msg ServerMsg.reply]
      [SessionEvent.msg ServerMsg.errorMsg] SessionOutcome.resolvedReply (by decide)⟩

end ChromiumHistory


namespace ChromiumHistory

/-! ## Claims C4 and C5: grace timeout and wrong-state messages -/

/-- C4 counterexample: with zero batches and no welcome, the 1-second grace
timeout does nothing — in particular `history_upload_complete` is not sent,
contradicting the claim that the client proceeds directly to the completion
step. -/
theorem grace_zero_batches_counterexample :
    (run 0 [SessionEvent.graceTimeout]).sentLog = []
    ∧ (run 0 [SessionEvent.graceTimeout]).historyUploadCompleteSent = false := by
  decide

/-- C4 (amended): on the grace timeout of a fresh session with batches to
send, the client does proceed to the upload phase and sends batch 1; with
zero batches the grace timeout is a no-op on every state, so the grace path
never reaches the completion step. -/
theorem grace_timeout_spec :
    (∀ n : Nat, 0 < n →
      (run n [SessionEvent.graceTimeout]).sentLog = [SentMsg.batch 1 0 1])
    ∧ (∀ s : SessionState, step 0 s SessionEvent.graceTimeout = s) := by
  constructor
  · intro n hn
    show (handleGraceTimeout n initialState).sentLog = [SentMsg.batch 1 0 1]
    unfold handleGraceTimeout
    rw [if_pos ⟨by simp [initialState], hn, rfl⟩]
    unfold sendNextBatch
    rw [if_neg (by simp [initialState]; omega)]
    simp [initialState]
  · intro s
    rw [step_eq_grace]
    unfold handleGraceTimeout
    rw [if_neg (by simp)]

theorem grace_timeout_spec_witness :
    (run 1 [SessionEvent.graceTimeout]).sentLog = [SentMsg.batch 1 0 1] :=
  grace_timeout_spec.1 1 (by decide)

/-- C5 counterexample: a `history_batch_ack` delivered to a session that has
sent no batch (here: zero batches prepared, no batch in flight) is not
ignored — it increments the acknowledgment counter and even triggers the
`history_upload_complete` send, changing the protocol-position state. -/
theorem wrong_state_ack_counterexample :
    (run 0 [SessionEvent.msg ServerMsg.batchAck]).totalBatchesAcknowledged = 1
    ∧ (run 0 [SessionEvent.msg ServerMsg.batchAck]).sentLog
        = [SentMsg.uploadComplete 0 1] := by
  decide

theorem sendNextBatch_outcome_of_open (n : Nat) (s : SessionState)
    (h : s.wsOpen = true) :
    (sendNextBatch n s).outcome = s.outcome
    ∧ (sendNextBatch n s).isResolved = s.isResolved := by
  unfold sendNextBatch
  split
  · exact ⟨rfl, rfl⟩
  · exact ⟨rfl, rfl⟩

/-- C5 (amended): a message of a type matched by no handler, an unparseable
message, and `chat_queued` are ignored and leave the session state unchanged;
a wrong-state `history_batch_ack` never terminates or crashes the session
(while the socket is open it neither settles the promise nor touches the
resolution flag) — but it does mutate the acknowledgment counter and can
trigger sends, as the counterexample shows. -/
theorem wrong_state_message_spec :
    (∀ (n : Nat) (s : SessionState),
        step n s (SessionEvent.msg ServerMsg.unknownType) = s)
    ∧ (∀ (n : Nat) (s : SessionState),
        step n s (SessionEvent.msg ServerMsg.malformed) = s)
    ∧ (∀ (n : Nat) (s : SessionState),
        step n s (SessionEvent.msg ServerMsg.chatQueued) = s)
    ∧ (∀ (n : Nat) (s : SessionState), s.wsOpen = true →
        (step n s (SessionEvent.msg ServerMsg.batchAck)).outcome = s.outcome
        ∧ (step n s (SessionEvent.msg ServerMsg.batchAck)).isResolved = s.isResolved) := by
  refine ⟨fun n s => rfl, fun n s => rfl, fun n s => rfl, ?_⟩
  intro n s h
  rw [step_eq_batchAck, handleBatchAck_eq]
  by_cases h1 : s.currentBatchIndex ≥ n
  · by_cases h2 : s.totalBatchesAcknowledged + 1 ≥ n ∧ ¬s.historyUploadCompleteSent = true
    · by_cases h3 : s.wsOpen = true
      · rw [if_pos h1, if_pos h2, if_pos h3]
        exact ⟨rfl, rfl⟩
      · rw [if_pos h1, if_pos h2, if_neg h3]
        exact ⟨rfl, rfl⟩
    · rw [if_pos h1, if_neg h2]
      exact ⟨rfl, rfl⟩
  · rw [if_neg h1]
    exact sendNextBatch_outcome_of_open n _ h

theorem wrong_state_message_spec_witness :
    (step 0 initialState (SessionEvent.msg ServerMsg.batchAck)).outcome
        = initialState.outcome
    ∧ (step 0 initialState (SessionEvent.msg ServerMsg.batchAck)).isResolved
        = initialState.isResolved :=
  wrong_state_message_spec.2.2.2 0 initialState (by decide)

end ChromiumHistory


namespace ChromiumHistory

/-! ## Claim C2: one batch in flight -/

/-- Per-entry form of the one-batch-in-flight property: a batch was sent only
after at least `batchNumber - 1` acknowledgments had been counted, and only
once a start trigger (welcome or grace fallback) had fired — so also batch 1
went out only with the session ready. -/
def batchEntryOk : SentMsg → Prop
  | SentMsg.batch b a st => b ≤ a + 1 ∧ 1 ≤ st
  | _ => True

/-- Inductive invariant of admissible sessions. -/
def SessionInv (s : SessionState) : Prop :=
  s.currentBatchIndex ≤ s.totalBatchesAcknowledged + s.startCount
  ∧ s.startCount ≤ 1
  ∧ (1 ≤ s.startCount → s.isConnected = true)
  ∧ s.totalBatchesAcknowledged ≤ s.currentBatchIndex
  ∧ (∀ m ∈ s.sentLog, batchEntryOk m)

theorem mem_append_entry (log : List SentMsg) (x : SentMsg)
    (h5 : ∀ m ∈ log, batchEntryOk m) (hx : batchEntryOk x) :
    ∀ m ∈ log ++ [x], batchEntryOk m := by
  intro m hm
  rcases List.mem_append.mp hm with h | h
  · exact h5 m h
  · have := List.mem_singleton.mp h
    subst this
    exact hx

theorem sessionInv_settle (s : SessionState) (o : SessionOutcome)
    (h : SessionInv s) : SessionInv (settle s o) := by
  unfold settle
  split
  · exact h
  · exact h

theorem sessionInv_step (n : Nat) (s : SessionState) (e : SessionEvent)
    (h : SessionInv s)
    (hconn : e = SessionEvent.msg ServerMsg.connected → s.startCount = 0)
    (hack : e = SessionEvent.msg ServerMsg.batchAck →
      s.totalBatchesAcknowledged < s.currentBatchIndex) :
    SessionInv (step n s e) := by
  obtain ⟨j1, j2, j3, j4, j5⟩ := h
  cases e with
  | graceTimeout =>
    rw [step_eq_grace]
    unfold handleGraceTimeout
    split
    · rename_i hg
      obtain ⟨hnc, hnpos, hidx0⟩ := hg
      have hsc : s.startCount = 0 := by
        by_contra hs
        exact hnc (j3 (by omega))
      unfold sendNextBatch
      split
      · exact ⟨by simp; omega, by simp; omega, by simp, by simp; omega, j5⟩
      · split
        · refine ⟨by simp; omega, by simp; omega, by simp, by simp; omega, ?_⟩
          exact mem_append_entry _ _ j5 (by simp [batchEntryOk]; omega)
        · apply sessionInv_settle
          exact ⟨by simp; omega, by simp; omega, by simp, by simp; omega, j5⟩
    · exact ⟨j1, j2, j3, j4, j5⟩
  | sockError =>
    rw [step_eq_sockError]
    simp only [handleSockError]
    split
    · exact ⟨j1, j2, j3, j4, j5⟩
    · exact sessionInv_settle _ _ ⟨j1, j2, j3, j4, j5⟩
  | sockClose =>
    rw [step_eq_sockClose]
    simp only [handleSockClose]
    split
    · exact ⟨j1, j2, j3, j4, j5⟩
    · exact sessionInv_settle _ _ ⟨j1, j2, j3, j4, j5⟩
  | sessionTimeout =>
    rw [step_eq_sessionTimeout]
    simp only [handleSessionTimeout]
    split
    · exact ⟨j1, j2, j3, j4, j5⟩
    · split
      · exact ⟨j1, j2, j3, j4, j5⟩
      · exact sessionInv_settle _ _ ⟨j1, j2, j3, j4, j5⟩
  | msg mm =>
    cases mm with
    | chatQueued => exact ⟨j1, j2, j3, j4, j5⟩
    | unknownType => exact ⟨j1, j2, j3, j4, j5⟩
    | malformed => exact ⟨j1, j2, j3, j4, j5⟩
    | reply =>
      rw [step_eq_reply]
      simp only [handleReply]
      split
      · exact ⟨j1, j2, j3, j4, j5⟩
      · exact sessionInv_settle _ _ ⟨j1, j2, j3, j4, j5⟩
    | errorMsg =>
      rw [step_eq_errorMsg]
      simp only [handleErrorMsg]
      split
      · exact ⟨j1, j2, j3, j4, j5⟩
      · exact sessionInv_settle _ _ ⟨j1, j2, j3, j4, j5⟩
    | uploadCompleteAck =>
      rw [step_eq_uploadCompleteAck]
      simp only [handleUploadCompleteAck]
      split
      · exact ⟨j1, j2, j3, j4, j5⟩
      · split
        · refine ⟨by simp; omega, by simp; omega, by simpa using j3, by simp; omega, ?_⟩
          exact mem_append_entry _ _ j5 (by simp [batchEntryOk])
        · exact ⟨j1, j2, j3, j4, j5⟩
    | connected =>
      have hsc : s.startCount = 0 := hconn rfl
      rw [step_eq_connected]
      simp only [handleConnected]
      split
      · unfold sendNextBatch
        split
        · split
          · exact ⟨by simp; omega, by simp; omega, by simp, by simp; omega, j5⟩
          · refine ⟨by simp; omega, by simp; omega, by simp, by simp; omega, ?_⟩
            exact mem_append_entry _ _ j5 (by simp [batchEntryOk]; omega)
        · apply sessionInv_settle
          exact ⟨by simp; omega, by simp; omega, by simp, by simp; omega, j5⟩
      · split
        · exact ⟨by simp; omega, by simp; omega, by simp, by simp; omega, j5⟩
        · split
          · refine ⟨by simp; omega, by simp; omega, by simp, by simp; omega, ?_⟩
            exact mem_append_entry _ _ j5 (by simp [batchEntryOk])
          · apply sessionInv_settle
            exact ⟨by simp; omega, by simp; omega, by simp, by simp; omega, j5⟩
    | batchAck =>
      have hlt : s.totalBatchesAcknowledged < s.currentBatchIndex := hack rfl
      rw [step_eq_batchAck, handleBatchAck_eq]
      split
      · split
        · split
          · refine ⟨by simp; omega, by simp; omega, by simpa using j3, by simp; omega, ?_⟩
            exact mem_append_entry _ _ j5 (by simp [batchEntryOk])
          · exact ⟨by simp; omega, by simp; omega, by simpa using j3, by simp; omega, j5⟩
        · exact ⟨by simp; omega, by simp; omega, by simpa using j3, by simp; omega, j5⟩
      · unfold sendNextBatch
        split
        · exact ⟨by simp; omega, by simp; omega, by simpa using j3, by simp; omega, j5⟩
        · split
          · refine ⟨by simp; omega, by simp; omega, by simpa using j3, by simp; omega, ?_⟩
            exact mem_append_entry _ _ j5 (by simp [batchEntryOk]; omega)
          · apply sessionInv_settle
            exact ⟨by simp; omega, by simp; omega, by simpa using j3, by simp; omega, j5⟩

theorem sessionInv_runFrom (n : Nat) :
    ∀ (events : List SessionEvent) (s : SessionState),
      admissible n s events = true → SessionInv s →
      SessionInv (runFrom n s events) := by
  intro events
  induction events with
  | nil => intro s _ h; exact h
  | cons e es ih =>
    intro s hadm h
    rw [admissible] at hadm
    simp only [Bool.and_eq_true] at hadm
    obtain ⟨hc, hrest⟩ := hadm
    refine ih (step n s e) hrest (sessionInv_step n s e h ?_ ?_)
    · intro he
      subst he
      simpa [eventAdmissible] using hc
    · intro he
      subst he
      simpa [eventAdmissible] using hc

/-- The `startsAtSend` field of every logged batch entry is bounded by the
state's current start-trigger count. -/
def logStartsLe (s : SessionState) : Prop :=
  ∀ b a st, SentMsg.batch b a st ∈ s.sentLog → st ≤ s.startCount

theorem sendNextBatch_startCount (n : Nat) (s : SessionState) :
    (sendNextBatch n s).startCount = s.startCount := by
  unfold sendNextBatch
  split
  · rfl
  · split
    · rfl
    · exact settle_startCount _ _

theorem logStartsLe_settle (s : SessionState) (o : SessionOutcome)
    (h : logStartsLe s) : logStartsLe (settle s o) := by
  intro b a st hm
  rw [settle_sentLog] at hm
  rw [settle_startCount]
  exact h b a st hm

theorem logStartsLe_sendNextBatch (n : Nat) (s : SessionState)
    (h : logStartsLe s) : logStartsLe (sendNextBatch n s) := by
  intro b a st hm
  rw [sendNextBatch_startCount]
  rcases mem_log_sendNextBatch n s _ hm with h1 | ⟨h1, _⟩
  · exact h b a st h1
  · injection h1 with hb ha hst
    exact hst.le

theorem logStartsLe_bump (s : SessionState) (h : logStartsLe s) :
    logStartsLe { s with isConnected := true, startCount := s.startCount + 1 } := by
  intro b a st hm
  exact Nat.le_succ_of_le (h b a st hm)

theorem logStartsLe_step (n : Nat) (s : SessionState) (e : SessionEvent)
    (h : logStartsLe s) : logStartsLe (step n s e) := by
  cases e with
  | graceTimeout =>
    rw [step_eq_grace]
    unfold handleGraceTimeout
    split
    · exact logStartsLe_sendNextBatch n _ (logStartsLe_bump s h)
    · exact h
  | sockError =>
    rw [step_eq_sockError]
    simp only [handleSockError]
    split
    · exact h
    · exact logStartsLe_settle _ _ h
  | sockClose =>
    rw [step_eq_sockClose]
    simp only [handleSockClose]
    split
    · exact h
    · exact logStartsLe_settle _ _ h
  | sessionTimeout =>
    rw [step_eq_sessionTimeout]
    simp only [handleSessionTimeout]
    split
    · exact h
    · split
      · exact h
      · exact logStartsLe_settle _ _ h
  | msg mm =>
    cases mm with
    | chatQueued => exact h
    | unknownType => exact h
    | malformed => exact h
    | reply =>
      rw [step_eq_reply]
      simp only [handleReply]
      split
      · exact h
      · exact logStartsLe_settle _ _ h
    | errorMsg =>
      rw [step_eq_errorMsg]
      simp only [handleErrorMsg]
      split
      · exact h
      · exact logStartsLe_settle _ _ h
    | uploadCompleteAck =>
      rw [step_eq_uploadCompleteAck]
      simp only [handleUploadCompleteAck]
      split
      · exact h
      · split
        · intro b a st hm
          simp only at hm
          rcases List.mem_append.mp hm with h1 | h1
          · exact h b a st h1
          · simp at h1
        · exact h
    | connected =>
      rw [step_eq_connected]
      simp only [handleConnected]
      split
      · split
        · exact logStartsLe_sendNextBatch n _ (logStartsLe_bump s h)
        · exact logStartsLe_settle _ _ (logStartsLe_bump s h)
      · split
        · exact logStartsLe_bump s h
        · split
          · intro b a st hm
            simp only at hm
            rcases List.mem_append.mp hm with h1 | h1
            · exact Nat.le_succ_of_le (h b a st h1)
            · simp at h1
          · exact logStartsLe_settle _ _ (logStartsLe_bump s h)
    | batchAck =>
      rw [step_eq_batchAck, handleBatchAck_eq]
      split
      · split
        · split
          · intro b a st hm
            simp only at hm
            rcases List.mem_append.mp hm with h1 | h1
            · exact h b a st h1
            · simp at h1
          · exact h
        · exact h
      · exact logStartsLe_sendNextBatch n _ h

theorem logStartsLe_runFrom (n : Nat) :
    ∀ (events : List SessionEvent) (s : SessionState),
      logStartsLe s → logStartsLe (runFrom n s events) := by
  intro events
  induction events with
  | nil => intro s h; exact h
  | cons e es ih => intro s h; exact ih (step n s e) (logStartsLe_step n s e h)

theorem step_startCount_other (n : Nat) (s : SessionState) (e : SessionEvent)
    (h1 : e ≠ SessionEvent.msg ServerMsg.connected)
    (h2 : e ≠ SessionEvent.graceTimeout) :
    (step n s e).startCount = s.startCount := by
  cases e with
  | graceTimeout => exact absurd rfl h2
  | sockError =>
    rw [step_eq_sockError]
    simp only [handleSockError]
    split
    · rfl
    · exact settle_startCount _ _
  | sockClose =>
    rw [step_eq_sockClose]
    simp only [handleSockClose]
    split
    · rfl
    · exact settle_startCount _ _
  | sessionTimeout =>
    rw [step_eq_sessionTimeout]
    simp only [handleSessionTimeout]
    split
    · rfl
    · split
      · rfl
      · exact settle_startCount _ _
  | msg mm =>
    cases mm with
    | chatQueued => rfl
    | unknownType => rfl
    | malformed => rfl
    | connected => exact absurd rfl h1
    | reply =>
      rw [step_eq_reply]
      simp only [handleReply]
      split
      · rfl
      · exact settle_startCount _ _
    | errorMsg =>
      rw [step_eq_errorMsg]
      simp only [handleErrorMsg]
      split
      · rfl
      · exact settle_startCount _ _
    | uploadCompleteAck =>
      rw [step_eq_uploadCompleteAck]
      simp only [handleUploadCompleteAck]
      split
      · rfl
      · split
        · rfl
        · rfl
    | batchAck =>
      rw [step_eq_batchAck, handleBatchAck_eq]
      split
      · split
        · split
          · rfl
          · rfl
        · rfl
      · exact sendNextBatch_startCount _ _

theorem runFrom_startCount_origin (n : Nat) :
    ∀ (events : List SessionEvent) (s : SessionState),
      1 ≤ (runFrom n s events).startCount →
      1 ≤ s.startCount
      ∨ SessionEvent.msg ServerMsg.connected ∈ events
      ∨ SessionEvent.graceTimeout ∈ events := by
  intro events
  induction events with
  | nil => intro s h; exact Or.inl h
  | cons e es ih =>
    intro s h
    by_cases h1 : e = SessionEvent.msg ServerMsg.connected
    · exact Or.inr (Or.inl (by rw [h1]; exact List.mem_cons_self _ _))
    · by_cases h2 : e = SessionEvent.graceTimeout
      · exact Or.inr (Or.inr (by rw [h2]; exact List.mem_cons_self _ _))
      · rcases ih (step n s e) h with hh | hh | hh
        · rw [step_startCount_other n s e h1 h2] at hh
          exact Or.inl hh
        · exact Or.inr (Or.inl (List.mem_cons_of_mem _ hh))
        · exact Or.inr (Or.inr (List.mem_cons_of_mem _ hh))

/-- C2 counterexample: when the `connected` welcome is processed after the
1-second grace fallback has already started the upload (a delayed welcome),
the client sends batch 2 with zero batch acknowledgments received — so two
batches are in flight, refuting the claim as stated. -/
theorem one_in_flight_counterexample :
    SentMsg.batch 2 0 2 ∈
      (run 2 [SessionEvent.graceTimeout, SessionEvent.msg ServerMsg.connected]).sentLog
    ∧ ¬(2 ≤ 0 + 1) := by decide

/-- C2 (amended): for every session and every admissible delivery schedule —
the welcome arrives at most once and not after the grace fallback fired, and
the server never acknowledges more batches than it was sent — every batch `i`
is sent only after at least `i - 1` batch acknowledgments have been received
(`b ≤ ackedAtSend + 1` for every logged batch entry) and only once the session
is ready (`1 ≤ startsAtSend`: a start trigger had already fired at the send,
so in particular batch 1 is sent only after the `connected` welcome or the
grace fallback, one of which must occur in the schedule), and at every point
at most one batch is unacknowledged (`currentBatchIndex ≤ acked + 1`). -/
theorem one_in_flight_spec (n : Nat) (events : List SessionEvent)
    (hadm : admissible n initialState events = true) :
    (∀ b a st, SentMsg.batch b a st ∈ (run n events).sentLog → b ≤ a + 1 ∧ 1 ≤ st)
    ∧ (run n events).currentBatchIndex ≤ (run n events).totalBatchesAcknowledged + 1
    ∧ (run n events).totalBatchesAcknowledged ≤ (run n events).currentBatchIndex
    ∧ (∀ b a st, SentMsg.batch b a st ∈ (run n events).sentLog →
        SessionEvent.msg ServerMsg.connected ∈ events
        ∨ SessionEvent.graceTimeout ∈ events) := by
  have hinit : SessionInv initialState := by
    refine ⟨by simp [initialState], by simp [initialState],
      by simp [initialState], by simp [initialState], ?_⟩
    intro m hm
    simp [initialState] at hm
  have hinv := sessionInv_runFrom n events initialState hadm hinit
  obtain ⟨j1, j2, j3, j4, j5⟩ := hinv
  have hok : ∀ b a st, SentMsg.batch b a st ∈ (run n events).sentLog →
      b ≤ a + 1 ∧ 1 ≤ st := by
    intro b a st hm
    rw [run] at hm
    have hb := j5 _ hm
    simpa [batchEntryOk] using hb
  refine ⟨hok, by simp only [run]; omega, by simp only [run]; exact j4, ?_⟩
  intro b a st hm
  have hst1 : 1 ≤ st := (hok b a st hm).2
  have hlog : logStartsLe (runFrom n initialState events) :=
    logStartsLe_runFrom n events initialState
      (by intro b' a' st' hm'; simp [initialState] at hm')
  rw [run] at hm
  have hpos : 1 ≤ (runFrom n initialState events).startCount :=
    le_trans hst1 (hlog b a st hm)
  rcases runFrom_startCount_origin n events initialState hpos with hh | hh
  · simp [initialState] at hh
  · exact hh

theorem one_in_flight_spec_witness :
    (run 2 [SessionEvent.msg ServerMsg.connected, SessionEvent.msg ServerMsg.batchAck,
        SessionEvent.msg ServerMsg.batchAck]).currentBatchIndex
      ≤ (run 2 [SessionEvent.msg ServerMsg.connected, SessionEvent.msg ServerMsg.batchAck,
        SessionEvent.msg ServerMsg.batchAck]).totalBatchesAcknowledged + 1 :=
  (one_in_flight_spec 2
    [SessionEvent.msg ServerMsg.connected, SessionEvent.msg ServerMsg.batchAck,
     SessionEvent.msg ServerMsg.batchAck] (by decide)).2.1

end ChromiumHistory


namespace ChromiumHistory

/-! ## Claims C7 and C9: the paginated enumerator -/

theorem bigFetch_guard (p : FetchParams) (fuel i : Nat) (st : MergeState)
    (oracle : List SearchResult) (h : st.allItems.length ≥ p.target) :
    bigFetch p (fuel + 1) i st oracle = (st, []) := by
  rw [bigFetch, if_pos h]

theorem bigFetch_err (p : FetchParams) (fuel i : Nat) (st : MergeState)
    (rest : List SearchResult)
    (h1 : ¬st.allItems.length ≥ p.target)
    (h2 : (match bigWindow p i with
           | some (a, b) => decide (a ≥ b)
           | none => false) = false) :
    bigFetch p (fuel + 1) i st (SearchResult.err :: rest)
      = (st, [{ primary := bigQuery p i st.allItems.length, fallback := none }]) := by
  rw [bigFetch, if_neg h1]
  simp only [consume, h2, Bool.false_eq_true, if_neg, not_false_iff]

theorem bigFetch_ok_continue (p : FetchParams) (fuel i : Nat) (st : MergeState)
    (items : List HistoryItem) (rest : List SearchResult)
    (h1 : ¬st.allItems.length ≥ p.target)
    (h2 : (match bigWindow p i with
           | some (a, b) => decide (a ≥ b)
           | none => false) = false)
    (h3 : (items.isEmpty && blankText p.searchText) = false)
    (h4 : (decide (items.length < min CHROME_API_LIMIT (p.target - st.allItems.length))
            && decide (items.length < SHORT_BATCH_LIMIT)) = false) :
    bigFetch p (fuel + 1) i st (SearchResult.ok items :: rest)
      = ((bigFetch p fuel (i + 1) (mergeItems st items) rest).1,
         { primary := bigQuery p i st.allItems.length, fallback := none }
           :: (bigFetch p fuel (i + 1) (mergeItems st items) rest).2) := by
  rw [bigFetch, if_neg h1]
  simp only [consume, h2, h3, h4, Bool.false_eq_true, if_neg, not_false_iff]

theorem bigFetch_ok_break (p : FetchParams) (fuel i : Nat) (st : MergeState)
    (items : List HistoryItem) (rest : List SearchResult)
    (h1 : ¬st.allItems.length ≥ p.target)
    (h2 : (match bigWindow p i with
           | some (a, b) => decide (a ≥ b)
           | none => false) = false)
    (h3 : (items.isEmpty && blankText p.searchText) = false)
    (h4 : (decide (items.length < min CHROME_API_LIMIT (p.target - st.allItems.length))
            && decide (items.length < SHORT_BATCH_LIMIT)) = true) :
    bigFetch p (fuel + 1) i st (SearchResult.ok items :: rest)
      = (mergeItems st items,
         [{ primary := bigQuery p i st.allItems.length, fallback := none }]) := by
  rw [bigFetch, if_neg h1]
  simp only [consume, h2, h3, h4, Bool.false_eq_true, if_neg, not_false_iff, if_pos]

/-- Result order check of the enumerator: `lastVisitTime` non-increasing
(undefined timestamps unconstrained). -/
def sortedByLastVisitDesc : List HistoryItem → Bool
  | [] => true
  | [_] => true
  | x :: y :: rest =>
    (match x.lastVisitTime, y.lastVisitTime with
     | some a, some b => decide (b ≤ a)
     | _, _ => true) && sortedByLastVisitDesc (y :: rest)

theorem foldl_fix {α β : Type} (f : α → β → α) (s : α) (b : β)
    (h : f s b = s) : ∀ n, List.foldl f s (List.replicate n b) = s := by
  intro n
  induction n with
  | zero => rfl
  | succ m ih =>
    rw [List.replicate_succ, List.foldl_cons, h]
    exact ih

theorem sortedDesc_replicate (x : HistoryItem) (n : Nat) :
    sortedByLastVisitDesc (List.replicate n x) = true := by
  induction n with
  | zero => rfl
  | succ m ih =>
    cases m with
    | zero => rfl
    | succ k =>
      rw [List.replicate_succ, List.replicate_succ]
      have hred : sortedByLastVisitDesc (x :: x :: List.replicate k x)
          = ((match x.lastVisitTime, x.lastVisitTime with
              | some a, some b => decide (b ≤ a)
              | _, _ => true)
             && sortedByLastVisitDesc (x :: List.replicate k x)) := rfl
      rw [hred, ← List.replicate_succ, ih, Bool.and_true]
      cases x.lastVisitTime with
      | none => rfl
      | some a => simp

theorem replicate_isEmpty_false {α : Type} (x : α) (n : Nat) (h : 0 < n) :
    (List.replicate n x).isEmpty = false := by
  cases n with
  | zero => omega
  | succ m => rw [List.replicate_succ]; rfl

/-- Items and parameters of the enumerator counterexamples. -/
def cxItemA : HistoryItem :=
  { url := some "a", title := none, visitCount := none, lastVisitTime := some 5 }

def cxItemB : HistoryItem :=
  { url := some "b", title := none, visitCount := none, lastVisitTime := some 9 }

def cxSt1 : MergeState :=
  { urlMap := [(some "a", cxItemA)], allItems := [cxItemA] }

def cxParamsA : FetchParams :=
  { searchText := "", useRange := true, startTime := 0, endTime := 50, target := 5 }

def cxParamsB : FetchParams :=
  { searchText := "", useRange := true, startTime := 0, endTime := 2000, target := 20000 }

def cxParamsC : FetchParams :=
  { searchText := "", useRange := true, startTime := 0, endTime := 3000, target := 30000 }

theorem merge_replicate_cxA (n : Nat) (h : 0 < n) :
    mergeItems emptyMergeState (List.replicate n cxItemA) = cxSt1 := by
  cases n with
  | zero => omega
  | succ m =>
    rw [List.replicate_succ, mergeItems, List.foldl_cons]
    have hstep : mergeStep emptyMergeState cxItemA = cxSt1 := by decide
    rw [hstep]
    exact foldl_fix mergeStep cxSt1 cxItemA (by decide) m

theorem fetchHistoryModel_big (now : Int) (p : FetchParams) (oracle : List SearchResult)
    (hv1 : (p.useRange && decide (p.startTime ≥ p.endTime)) = false)
    (hv2 : (p.useRange && decide (p.startTime > now)) = false)
    (ht : ¬p.target ≤ CHROME_API_LIMIT) :
    fetchHistoryModel now p oracle
      = (Except.ok
          ((bigFetch p (numBatchesOf p) 0 emptyMergeState oracle).1.allItems.take p.target),
         (bigFetch p (numBatchesOf p) 0 emptyMergeState oracle).2) := by
  rw [fetchHistoryModel]
  simp only [hv1, hv2, Bool.false_eq_true, if_neg, not_false_iff]
  rw [if_neg ht]

theorem cxB_eval :
    fetchHistoryModel 5000 cxParamsB
      [SearchResult.ok (List.replicate 5000 cxItemA), SearchResult.ok [cxItemB]]
    = (Except.ok [cxItemA, cxItemB],
       [{ primary := bigQuery cxParamsB 0 0, fallback := none },
        { primary := bigQuery cxParamsB 1 1, fallback := none }]) := by
  rw [fetchHistoryModel_big 5000 cxParamsB _ (by decide) (by decide) (by decide)]
  have hnb : numBatchesOf cxParamsB = 2 := by decide
  rw [hnb]
  rw [bigFetch_ok_continue cxParamsB 1 0 emptyMergeState _ _ (by decide) (by decide)
    (by rw [replicate_isEmpty_false cxItemA 5000 (by decide)]; rfl)
    (by rw [List.length_replicate]; decide)]
  rw [merge_replicate_cxA 5000 (by decide)]
  rw [bigFetch_ok_break cxParamsB 0 1 cxSt1 [cxItemB] [] (by decide) (by decide)
    (by decide) (by decide)]
  rfl

theorem cxC_eval :
    fetchHistoryModel 5000 cxParamsC
      [SearchResult.ok (List.replicate 5000 cxItemA), SearchResult.err]
    = (Except.ok [cxItemA],
       [{ primary := bigQuery cxParamsC 0 0, fallback := none },
        { primary := bigQuery cxParamsC 1 1, fallback := none }]) := by
  rw [fetchHistoryModel_big 5000 cxParamsC _ (by decide) (by decide) (by decide)]
  have hnb : numBatchesOf cxParamsC = 3 := by decide
  rw [hnb]
  rw [bigFetch_ok_continue cxParamsC 2 0 emptyMergeState _ _ (by decide) (by decide)
    (by rw [replicate_isEmpty_false cxItemA 5000 (by decide)]; rfl)
    (by rw [List.length_replicate]; decide)]
  rw [merge_replicate_cxA 5000 (by decide)]
  rw [bigFetch_err cxParamsC 1 1 cxSt1 [] (by decide) (by decide)]
  rfl

theorem bigFetch_iter_bound (p : FetchParams) :
    ∀ (fuel i : Nat) (st : MergeState) (oracle : List SearchResult),
      (bigFetch p fuel i st oracle).2.length ≤ fuel := by
  intro fuel
  induction fuel with
  | zero => intro i st oracle; rw [bigFetch]; simp
  | succ f ih =>
    intro i st oracle
    simp only [bigFetch]
    split
    · simp
    · split
      · simp
      · cases oracle with
        | nil =>
          simp only [consume]
          repeat' split
          all_goals try simp
          all_goals exact ih _ _ _
        | cons r rest =>
          cases r with
          | err => simp [consume]
          | ok items =>
            simp only [consume]
            repeat' split
            all_goals try simp
            all_goals exact ih _ _ _

theorem bigFetch_iter_window (p : FetchParams) :
    ∀ (fuel i : Nat) (st : MergeState) (oracle : List SearchResult)
      (j : Nat) (e : IterEntry),
      (bigFetch p fuel i st oracle).2.get? j = some e →
      ∃ stl, e.primary = bigQuery p (i + j) stl := by
  intro fuel
  induction fuel with
  | zero =>
    intro i st oracle j e he
    rw [bigFetch] at he
    simp at he
  | succ f ih =>
    intro i st oracle j e he
    simp only [bigFetch] at he
    split at he
    · simp at he
    · split at he
      · simp at he
      · cases oracle with
        | nil =>
          simp only [consume] at he
          split at he <;> split at he
          ·
            cases j with
            | zero =>
              simp only [List.get?_cons_zero, Option.some_inj] at he
              exact ⟨st.allItems.length, by rw [← he]; simp⟩
            | succ j' =>
              simp only [List.get?_cons_succ, List.get?_nil] at he
              exact Option.noConfusion he
          ·
            cases j with
            | zero =>
              simp only [List.get?_cons_zero, Option.some_inj] at he
              exact ⟨st.allItems.length, by rw [← he]; simp⟩
            | succ j' =>
              simp only [List.get?_cons_succ] at he
              obtain ⟨stl, hstl⟩ := ih (i + 1) _ _ j' e he
              refine ⟨stl, ?_⟩
              rw [hstl]
              have harith : i + 1 + j' = i + (j' + 1) := by omega
              rw [harith]
          ·
            cases j with
            | zero =>
              simp only [List.get?_cons_zero, Option.some_inj] at he
              exact ⟨st.allItems.length, by rw [← he]; simp⟩
            | succ j' =>
              simp only [List.get?_cons_succ, List.get?_nil] at he
              exact Option.noConfusion he
          ·
            cases j with
            | zero =>
              simp only [List.get?_cons_zero, Option.some_inj] at he
              exact ⟨st.allItems.length, by rw [← he]; simp⟩
            | succ j' =>
              simp only [List.get?_cons_succ] at he
              obtain ⟨stl, hstl⟩ := ih (i + 1) _ _ j' e he
              refine ⟨stl, ?_⟩
              rw [hstl]
              have harith : i + 1 + j' = i + (j' + 1) := by omega
              rw [harith]
        | cons r rest =>
          cases r with
          | err =>
            simp only [consume] at he
            cases j with
            | zero =>
              simp only [List.get?_cons_zero, Option.some_inj] at he
              exact ⟨st.allItems.length, by rw [← he]; simp⟩
            | succ j' =>
              simp only [List.get?_cons_succ, List.get?_nil] at he
              exact Option.noConfusion he
          | ok items =>
            simp only [consume] at he
            split at he <;> split at he
            ·
              cases j with
              | zero =>
                simp only [List.get?_cons_zero, Option.some_inj] at he
                exact ⟨st.allItems.length, by rw [← he]; simp⟩
              | succ j' =>
                simp only [List.get?_cons_succ, List.get?_nil] at he
                exact Option.noConfusion he
            ·
              cases j with
              | zero =>
                simp only [List.get?_cons_zero, Option.some_inj] at he
                exact ⟨st.allItems.length, by rw [← he]; simp⟩
              | succ j' =>
                simp only [List.get?_cons_succ] at he
                obtain ⟨stl, hstl⟩ := ih (i + 1) _ _ j' e he
                refine ⟨stl, ?_⟩
                rw [hstl]
                have harith : i + 1 + j' = i + (j' + 1) := by omega
                rw [harith]
            ·
              cases j with
              | zero =>
                simp only [List.get?_cons_zero, Option.some_inj] at he
                exact ⟨st.allItems.length, by rw [← he]; simp⟩
              | succ j' =>
                simp only [List.get?_cons_succ, List.get?_nil] at he
                exact Option.noConfusion he
            ·
              cases j with
              | zero =>
                simp only [List.get?_cons_zero, Option.some_inj] at he
                exact ⟨st.allItems.length, by rw [← he]; simp⟩
              | succ j' =>
                simp only [List.get?_cons_succ] at he
                obtain ⟨stl, hstl⟩ := ih (i + 1) _ _ j' e he
                refine ⟨stl, ?_⟩
                rw [hstl]
                have harith : i + 1 + j' = i + (j' + 1) := by omega
                rw [harith]

theorem fetchHistoryModel_fast (now : Int) (p : FetchParams) (oracle : List SearchResult)
    (ht : p.target ≤ CHROME_API_LIMIT) :
    (fetchHistoryModel now p oracle).2.length ≤ 1
    ∧ (callsOf (fetchHistoryModel now p oracle).2).length ≤ 2
    ∧ (blankText p.searchText = false →
        (callsOf (fetchHistoryModel now p oracle).2).length ≤ 1)
    ∧ (∀ q ∈ callsOf (fetchHistoryModel now p oracle).2, q.maxResults = p.target)
    ∧ ((∀ r ∈ oracle, ∀ l, r = SearchResult.ok l → l.length ≤ p.target) →
        ∀ l, (fetchHistoryModel now p oracle).1 = Except.ok l → l.length ≤ p.target) := by
  rw [fetchHistoryModel]
  split
  · refine ⟨by simp, by simp [callsOf], fun _ => by simp [callsOf],
      fun q hq => absurd hq (by simp [callsOf]), fun _ l hl => ?_⟩
    simp only [Except.ok.injEq] at hl
    subst hl
    simp
  · split
    · refine ⟨by simp, by simp [callsOf], fun _ => by simp [callsOf],
        fun q hq => absurd hq (by simp [callsOf]), fun _ l hl => ?_⟩
      simp only [Except.ok.injEq] at hl
      subst hl
      simp
    · cases oracle with
      | nil =>
        simp only [consume]
        split
        · rename_i hcond
          refine ⟨by simp, by simp [callsOf], fun hb => ?_,
            fun q hq => ?_, fun _ l hl => ?_⟩
          · simp only [List.isEmpty_nil, Bool.true_and] at hcond
            rw [hb] at hcond
            exact absurd hcond (by simp)
          · simp [callsOf] at hq
            rcases hq with h | h <;> subst h <;> rfl
          · simp only [Except.ok.injEq] at hl
            subst hl
            simp
        · refine ⟨by simp, by simp [callsOf], fun _ => by simp [callsOf],
            fun q hq => ?_, fun _ l hl => ?_⟩
          · simp [callsOf] at hq
            subst hq
            rfl
          · simp only [Except.ok.injEq] at hl
            subst hl
            simp
      | cons r rest =>
        cases r with
        | err =>
          simp only [consume]
          refine ⟨by simp, by simp [callsOf], fun _ => by simp [callsOf],
            fun q hq => ?_, fun _ l hl => ?_⟩
          · simp [callsOf] at hq
            subst hq
            rfl
          · exact Except.noConfusion hl
        | ok items =>
          simp only [consume]
          split
          · cases rest with
            | nil =>
              simp only [consume]
              refine ⟨by simp, by simp [callsOf], fun hb => ?_,
                fun q hq => ?_, fun hor l hl => ?_⟩
              · rename_i hcond
                simp only [Bool.and_eq_true] at hcond
                rw [hb] at hcond
                exact absurd hcond.2 (by simp)
              · simp [callsOf] at hq
                rcases hq with h | h <;> subst h <;> rfl
              · simp only [Except.ok.injEq] at hl
                subst hl
                simp
            | cons r2 rest2 =>
              cases r2 with
              | err =>
                simp only [consume]
                refine ⟨by simp, by simp [callsOf], fun hb => ?_,
                  fun q hq => ?_, fun hor l hl => ?_⟩
                · rename_i hcond
                  simp only [Bool.and_eq_true] at hcond
                  rw [hb] at hcond
                  exact absurd hcond.2 (by simp)
                · simp [callsOf] at hq
                  rcases hq with h | h <;> subst h <;> rfl
                · simp only [Except.ok.injEq] at hl
                  subst hl
                  simp
              | ok fb =>
                simp only [consume]
                refine ⟨by simp, by simp [callsOf], fun hb => ?_,
                  fun q hq => ?_, fun hor l hl => ?_⟩
                · rename_i hcond
                  simp only [Bool.and_eq_true] at hcond
                  rw [hb] at hcond
                  exact absurd hcond.2 (by simp)
                · simp [callsOf] at hq
                  rcases hq with h | h <;> subst h <;> rfl
                · simp only [Except.ok.injEq] at hl
                  have hfb := hor (SearchResult.ok fb)
                    (List.mem_cons_of_mem _ (List.mem_cons_self _ _)) fb rfl
                  rw [← hl]
                  exact hfb
          · refine ⟨by simp, by simp [callsOf], fun _ => by simp [callsOf],
              fun q hq => ?_, fun hor l hl => ?_⟩
            · simp [callsOf] at hq
              subst hq
              rfl
            · simp only [Except.ok.injEq] at hl
              have hit := hor (SearchResult.ok items) (List.mem_cons_self _ _) items rfl
              rw [← hl]
              exact hit

/-- C7 counterexample: (i) a small request (`targetCount = 5 ≤ cap`) with a
blank text query whose first call returns no items issues two source calls
(the broad fallback), not exactly one; (ii) a large windowed request whose
first window returns older records than the second returns a record set that
is not sorted by `lastVisitTime` descending, even though every source
response was sorted (the enumerator never re-sorts). -/
theorem enumerator_counterexample :
    cxParamsA.target ≤ CHROME_API_LIMIT
    ∧ (callsOf (fetchHistoryModel 100 cxParamsA
        [SearchResult.ok [], SearchResult.ok []]).2).length = 2
    ∧ CHROME_API_LIMIT < cxParamsB.target
    ∧ sortedByLastVisitDesc (List.replicate 5000 cxItemA) = true
    ∧ sortedByLastVisitDesc [cxItemB] = true
    ∧ (fetchHistoryModel 5000 cxParamsB
        [SearchResult.ok (List.replicate 5000 cxItemA), SearchResult.ok [cxItemB]]).1
      = Except.ok [cxItemA, cxItemB]
    ∧ sortedByLastVisitDesc [cxItemA, cxItemB] = false := by
  refine ⟨by decide, by decide, by decide, sortedDesc_replicate _ _, by decide, ?_, by decide⟩
  rw [cxB_eval]

/-- C7 (amended): for every enumeration request — if `targetCount` is at most
the per-call cap of 10,000 the enumerator issues one primary source call plus
at most one broad fallback call (exactly one call total when the text query is
non-blank), each requesting `targetCount` records, and (under the source's
cap contract) returns at most `targetCount` records; if `targetCount` exceeds
the cap it runs at most `⌈targetCount/10000⌉` loop iterations, the `j`-th
primary query covering the `j`-th equal sub-window and requesting at most the
cap, and the returned record set holds at most `targetCount` records (in
accumulation order; the enumerator does not re-sort). -/
theorem enumerator_pagination_spec :
    (∀ (now : Int) (p : FetchParams) (oracle : List SearchResult),
        p.target ≤ CHROME_API_LIMIT →
        (fetchHistoryModel now p oracle).2.length ≤ 1
        ∧ (callsOf (fetchHistoryModel now p oracle).2).length ≤ 2
        ∧ (blankText p.searchText = false →
            (callsOf (fetchHistoryModel now p oracle).2).length ≤ 1)
        ∧ (∀ q ∈ callsOf (fetchHistoryModel now p oracle).2, q.maxResults = p.target)
        ∧ ((∀ r ∈ oracle, ∀ l, r = SearchResult.ok l → l.length ≤ p.target) →
            ∀ l, (fetchHistoryModel now p oracle).1 = Except.ok l →
              l.length ≤ p.target))
    ∧ (∀ (now : Int) (p : FetchParams) (oracle : List SearchResult),
        CHROME_API_LIMIT < p.target →
        (fetchHistoryModel now p oracle).2.length ≤ numBatchesOf p
        ∧ (∀ (j : Nat) (e : IterEntry),
            (fetchHistoryModel now p oracle).2.get? j = some e →
            ∃ stl, e.primary = bigQuery p j stl
              ∧ e.primary.maxResults ≤ CHROME_API_LIMIT)
        ∧ (∀ l, (fetchHistoryModel now p oracle).1 = Except.ok l →
            l.length ≤ p.target)) := by
  constructor
  · intro now p oracle ht
    exact fetchHistoryModel_fast now p oracle ht
  · intro now p oracle ht
    rw [fetchHistoryModel]
    split
    · refine ⟨by simp, ?_, ?_⟩
      · intro j e he
        simp at he
      · intro l hl
        simp only [Except.ok.injEq] at hl
        rw [← hl]
        simp
    · split
      · refine ⟨by simp, ?_, ?_⟩
        · intro j e he
          simp at he
        · intro l hl
          simp only [Except.ok.injEq] at hl
          rw [← hl]
          simp
      · rw [if_neg (by omega)]
        refine ⟨bigFetch_iter_bound p _ 0 _ _, ?_, ?_⟩
        · intro j e he
          obtain ⟨stl, hstl⟩ := bigFetch_iter_window p (numBatchesOf p) 0 _ _ j e he
          rw [Nat.zero_add] at hstl
          refine ⟨stl, hstl, ?_⟩
          rw [hstl]
          exact Nat.min_le_left _ _
        · intro l hl
          simp only [Except.ok.injEq] at hl
          rw [← hl]
          exact List.length_take_le _ _

theorem enumerator_pagination_spec_witness :
    (fetchHistoryModel 0 cxParamsA []).2.length ≤ 1 :=
  (enumerator_pagination_spec.1 0 cxParamsA [] (by decide)).1

/-- C9 counterexample: in a three-window enumeration whose second window's
source call fails, the enumeration still returns the partial results of the
first window without raising, but it runs only two iterations — the third
window is never queried, so the failure does abort the remaining partitions'
calls. -/
theorem partition_failure_counterexample :
    (fetchHistoryModel 5000 cxParamsC
        [SearchResult.ok (List.replicate 5000 cxItemA), SearchResult.err]).1
      = Except.ok [cxItemA]
    ∧ (fetchHistoryModel 5000 cxParamsC
        [SearchResult.ok (List.replicate 5000 cxItemA), SearchResult.err]).2.length = 2
    ∧ numBatchesOf cxParamsC = 3 := by
  refine ⟨?_, ?_, by decide⟩
  · rw [cxC_eval]
  · rw [cxC_eval]
    rfl

/-- C9 (amended): a source-call failure during a multi-partition enumeration
is swallowed, never raised — the big path always resolves with a result list
— and the loop keeps exactly the partial results accumulated before the
failure; but the failing call ends the loop, so the remaining partitions are
not queried (the failing iteration is the last logged one). -/
theorem partition_failure_spec :
    (∀ (now : Int) (p : FetchParams) (oracle : List SearchResult),
        CHROME_API_LIMIT < p.target →
        ∀ e, (fetchHistoryModel now p oracle).1 ≠ Except.error e)
    ∧ (∀ (p : FetchParams) (fuel i : Nat) (st : MergeState)
        (rest : List SearchResult),
        ¬st.allItems.length ≥ p.target →
        (match bigWindow p i with
         | some (a, b) => decide (a ≥ b)
         | none => false) = false →
        bigFetch p (fuel + 1) i st (SearchResult.err :: rest)
          = (st, [{ primary := bigQuery p i st.allItems.length,
                    fallback := none }])) := by
  constructor
  · intro now p oracle ht e
    rw [fetchHistoryModel]
    split
    · simp
    · split
      · simp
      · rw [if_neg (by omega)]
        simp
  · intro p fuel i st rest h1 h2
    exact bigFetch_err p fuel i st rest h1 h2

theorem partition_failure_spec_witness :
    (fetchHistoryModel 5000 cxParamsC [SearchResult.err]).1 ≠ Except.error () :=
  partition_failure_spec.1 5000 cxParamsC [SearchResult.err] (by decide) ()

end ChromiumHistory
